import Mathlib

/-!
# Verification of the AMO-midis rating app (`app.py`)

A shallow embedding of the single-file Flask application `app.py`
(MuseScore upload / track rating / model arena).  Each Python helper or
route handler that the verified properties touch is translated into an
executable Lean function:

* pure string helpers (`str.strip`, `str.lower`, `int(...)`, `Path(...).stem`,
  string comparison used by `sorted`/`list.sort`) are modelled on `List Char`;
* the CSV-backed stores appear as explicit values: the ratings store as an
  optional list of raw rows (`none` = file absent, first row = header), and
  the metadata store as a list of parsed records;
* request data (`request.form`, `request.args`) is an association list of
  string pairs with first-match lookup, as in Werkzeug's MultiDict;
* handlers return their response outcome together with the records they
  append, instead of performing I/O;
* external collaborators (werkzeug's `secure_filename`, the MuseScore
  conversion subprocess) are parameters of the upload handler.

Timestamps and client IPs are threaded through unchanged or omitted where
no verified property mentions them.
-/

set_option linter.unusedVariables false

/-! ## Python string primitives -/

/-- Model of Python `str.strip()` with no argument: remove leading and
trailing whitespace (modelled for the ASCII whitespace characters). -/
def pyStrip (s : String) : String :=
  ⟨((s.data.dropWhile Char.isWhitespace).reverse.dropWhile Char.isWhitespace).reverse⟩

/-- Lower-case a single character (ASCII model of `str.lower()`). -/
def lowerChar (c : Char) : Char :=
  if 'A' ≤ c ∧ c ≤ 'Z' then Char.ofNat (c.toNat + 32) else c

/-- Model of Python `str.lower()` (ASCII model). -/
def pyLower (s : String) : String := ⟨s.data.map lowerChar⟩

/-- ASCII decimal digit test. -/
def isAsciiDigit (c : Char) : Bool := '0' ≤ c && c ≤ '9'

/-- Checks that a character list matches CPython's digit grammar for
`int(str)` after the optional sign: a nonempty digit run in which single
underscores may occur between digits only.  The Boolean argument records
whether the previous character was a digit. -/
def scanDigits : Bool → List Char → Bool
  | seen, [] => seen
  | seen, c :: cs =>
    if isAsciiDigit c then scanDigits true cs
    else if c = '_' then seen && scanDigits false cs
    else false

/-- Numeric value of a digit/underscore run (underscores ignored). -/
def digitsValue (l : List Char) : Nat :=
  (l.filter isAsciiDigit).foldl (fun a c => 10 * a + (c.toNat - '0'.toNat)) 0

/-- Parse an unsigned digit body as `int` does. -/
def pyIntBody (l : List Char) : Option Nat :=
  if scanDigits false l then some (digitsValue l) else none

/-- Model of Python `int(s)` on strings: strip whitespace, optional single
sign, then a digit run (ASCII model); `none` models a raised `ValueError`. -/
def pyInt (s : String) : Option Int :=
  match (pyStrip s).data with
  | '+' :: rest => (pyIntBody rest).map Int.ofNat
  | '-' :: rest => (pyIntBody rest).map (fun n => -(n : Int))
  | l => (pyIntBody l).map Int.ofNat

/-- Lexicographic (code-point) strict comparison of character lists,
the order Python uses for `str < str`. -/
def listLt : List Char → List Char → Bool
  | [], [] => false
  | [], _ :: _ => true
  | _ :: _, [] => false
  | c :: cs, d :: ds =>
    if c < d then true
    else if d < c then false
    else listLt cs ds

/-- Python string `<`. -/
def pyStrLtB (a b : String) : Bool := listLt a.data b.data

/-- Python string `<` as a proposition. -/
def pyStrLt (a b : String) : Prop := pyStrLtB a b = true

instance : DecidableRel pyStrLt := fun a b => by unfold pyStrLt; infer_instance

/-- Python string `≤` (negation of the reverse strict comparison). -/
def pyStrLe (a b : String) : Prop := pyStrLtB b a = false

instance : DecidableRel pyStrLe := fun a b => by unfold pyStrLe; infer_instance

/-- Model of Python `Path(name).stem`: the name with its last suffix
removed, where a suffix is a final `.part` with the dot neither leading
nor trailing. -/
def pathStem (s : String) : String :=
  let cs := s.data
  match ((List.range cs.length).filter (fun i => cs.getD i ' ' = '.')).getLast? with
  | some i => if 0 < i ∧ i < cs.length - 1 then ⟨cs.take i⟩ else s
  | none => s

/-- Substring after the last dot, modelling `filename.rsplit(".", 1)[1]`
(only evaluated by the app when the filename contains a dot). -/
def extAfterLastDot (s : String) : String :=
  let cs := s.data
  match ((List.range cs.length).filter (fun i => cs.getD i ' ' = '.')).getLast? with
  | some i => ⟨cs.drop (i + 1)⟩
  | none => s

/-! ## Request data (`request.form` / `request.args`) -/

/-- Submitted form / query data: key-value pairs in submission order. -/
abbrev Form := List (String × String)

/-- `request.form.get(k)` — first value for the key, if any. -/
def formGet (form : Form) (k : String) : Option String :=
  (form.find? (fun kv => kv.1 == k)).map (·.2)

/-- `request.form.get(k, d)`. -/
def formGetD (form : Form) (k d : String) : String := (formGet form k).getD d

/-- `request.form.getlist(k)` — every value for the key, in order. -/
def formGetList (form : Form) (k : String) : List String :=
  (form.filter (fun kv => kv.1 == k)).map (·.2)

/-- Python truthiness of an optional string (`if s:`): present and nonempty. -/
def truthy : Option String → Bool
  | none => false
  | some s => s ≠ ""

/-! ## Stores -/

/-- One parsed row of `metadata.csv` as `csv.DictReader` exposes it
(the `upload_timestamp` column is never read by the app and is omitted).
A metadata dictionary with a missing/absent value is modelled by `""`,
which the app treats identically (`metadata.get(k) or ...`). -/
structure MetaRow where
  filename : String
  model_name : String
  composer : String
  piece_name : String
  score_filename : String
deriving DecidableEq, Repr

/-- The empty dictionary `{}` returned when no metadata row matches. -/
def emptyMetaRow : MetaRow := ⟨"", "", "", "", ""⟩

/-- `get_file_metadata`: first metadata row whose `filename` column equals
the query, else the empty dictionary. -/
def get_file_metadata (store : List MetaRow) (filename : String) : MetaRow :=
  ((store.find? (fun r => r.filename == filename)).getD emptyMetaRow)

/-- The ratings store `ratings.csv` as raw CSV rows: `none` when the file
does not exist, otherwise the list of rows (first row = header). -/
abbrev RatingsCsv := Option (List (List String))

/-- `get_user_rated_tracks`: scan the ratings store and collect the
filenames whose row email matches the query email case-insensitively.
Collected filenames model the Python `set` by insertion order with
duplicates dropped. -/
def get_user_rated_tracks (store : RatingsCsv) (email : String) : List String :=
  match store with
  | none => []
  | some rows =>
    match rows with
    | [] => []
    | header :: body =>
      if header.isEmpty then []
      else
        match header.findIdx? (fun c => c == "filename") with
        | none => []
        | some fIdx =>
          let eIdx? := if header.contains "email" then header.findIdx? (fun c => c == "email") else none
          body.foldl (fun acc row =>
            if row.length ≤ fIdx then acc
            else
              match eIdx? with
              | some eIdx =>
                if eIdx < row.length then
                  if pyLower (pyStrip (row.getD eIdx "")) = pyLower email then
                    if row.getD fIdx "" ∈ acc then acc else acc ++ [row.getD fIdx ""]
                  else acc
                else acc
              | none => acc) []

/-- `get_user_rated_tracks` with the query email already lowered; used to
factor the case-insensitivity proof. -/
def ratedTracksLowered (store : RatingsCsv) (lowmail : String) : List String :=
  match store with
  | none => []
  | some rows =>
    match rows with
    | [] => []
    | header :: body =>
      if header.isEmpty then []
      else
        match header.findIdx? (fun c => c == "filename") with
        | none => []
        | some fIdx =>
          let eIdx? := if header.contains "email" then header.findIdx? (fun c => c == "email") else none
          body.foldl (fun acc row =>
            if row.length ≤ fIdx then acc
            else
              match eIdx? with
              | some eIdx =>
                if eIdx < row.length then
                  if pyLower (pyStrip (row.getD eIdx "")) = lowmail then
                    if row.getD fIdx "" ∈ acc then acc else acc ++ [row.getD fIdx ""]
                  else acc
                else acc
              | none => acc) []

/-! ## Piece identity (`_derive_piece_identity`) -/

/-- The tuple `(key, display_label, piece_name, composer)` returned by
`_derive_piece_identity`, with named fields. -/
structure PieceIdent where
  key : String
  label : String
  piece : String
  composer : String
deriving DecidableEq, Repr

/-- `_derive_piece_identity(filename, metadata)`. -/
def derivePieceIdentity (filename : String) (m : MetaRow) : PieceIdent :=
  let piece0 := pyStrip (if m.piece_name ≠ "" then m.piece_name else m.score_filename)
  let composer := pyStrip m.composer
  if piece0 ≠ "" ∧ composer ≠ "" then
    ⟨"composer::" ++ composer ++ "|piece::" ++ piece0, composer ++ " — " ++ piece0, piece0, composer⟩
  else if piece0 ≠ "" then
    ⟨"piece::" ++ piece0, piece0, piece0, composer⟩
  else if composer ≠ "" then
    ⟨"composer_only::" ++ composer, composer, piece0, composer⟩
  else
    ⟨"file::" ++ pathStem filename, pathStem filename, pathStem filename, composer⟩

/-! ## Piece grouping (`collect_piece_groups`) -/

/-- One element of a group's `tracks` list (the per-track entry dict). -/
structure PieceEntry where
  filename : String
  md : MetaRow
  model_name : String
  piece_name : String
  composer : String
deriving DecidableEq, Repr

/-- The group dict built for each piece key. -/
structure PieceGroup where
  tracks : List PieceEntry
  display_label : String
  piece_name : String
  composer : String
deriving DecidableEq, Repr

/-- The entry built for a track inside the grouping loop. -/
def mkPieceEntry (store : List MetaRow) (filename : String) : PieceEntry :=
  let m := get_file_metadata store filename
  let pid := derivePieceIdentity filename m
  { filename := filename, md := m, model_name := pyStrip m.model_name,
    piece_name := pid.piece, composer := pid.composer }

/-- The derived identity of a file given the metadata store. -/
def pidOf (store : List MetaRow) (filename : String) : PieceIdent :=
  derivePieceIdentity filename (get_file_metadata store filename)

/-- The grouping key of a file given the metadata store. -/
def entryKey (store : List MetaRow) (filename : String) : String := (pidOf store filename).key

/-- The loop body applied to a group after `setdefault`: append the entry,
then keep the richest available label information and backfill
composer/piece. -/
def updGroup (e : PieceEntry) (g : PieceGroup) : PieceGroup :=
  let g1 : PieceGroup := { g with tracks := g.tracks ++ [e] }
  let g2 : PieceGroup :=
    if e.composer ≠ "" ∧ e.piece_name ≠ "" then
      { g1 with display_label := e.composer ++ " — " ++ e.piece_name }
    else if e.piece_name ≠ "" ∧ g1.display_label = "" then
      { g1 with display_label := e.piece_name }
    else g1
  let g3 : PieceGroup :=
    if e.composer ≠ "" ∧ g2.composer = "" then { g2 with composer := e.composer } else g2
  if e.piece_name ≠ "" ∧ g3.piece_name = "" then { g3 with piece_name := e.piece_name } else g3

/-- The default group value passed to `setdefault`. -/
def initGroup (pid : PieceIdent) : PieceGroup :=
  { tracks := [], display_label := pid.label, piece_name := pid.piece, composer := pid.composer }

/-- First value for a key in an insertion-ordered dict. -/
def assocFind (groups : List (String × PieceGroup)) (k : String) : Option PieceGroup :=
  (groups.find? (fun kg => kg.1 == k)).map (·.2)

/-- Replace the (first) binding of a key in an insertion-ordered dict. -/
def assocUpdate (groups : List (String × PieceGroup)) (k : String) (g : PieceGroup) :
    List (String × PieceGroup) :=
  match groups with
  | [] => []
  | kg :: rest => if kg.1 == k then (k, g) :: rest else kg :: assocUpdate rest k g

/-- One iteration of the `collect_piece_groups` loop over a sorted file
name, threading the insertion-ordered `groups` dict. -/
def stepGroups (store : List MetaRow) (groups : List (String × PieceGroup)) (filename : String) :
    List (String × PieceGroup) :=
  let pid := pidOf store filename
  let e := mkPieceEntry store filename
  match assocFind groups pid.key with
  | some g => assocUpdate groups pid.key (updGroup e g)
  | none => groups ++ [(pid.key, updGroup e (initGroup pid))]

/-- `sorted(...)` over strings: a stable sort in Python string order.
`List.insertionSort` with a total preorder is extensionally the unique
stable ascending sort, hence a faithful model of Timsort. -/
def pySortedStrings (l : List String) : List String := List.insertionSort pyStrLe l

/-- `collect_piece_groups()`: group the sorted `.ogg` listing by piece key,
then retain only groups with at least two tracks.  `files` models the
names returned by `UPLOAD_FOLDER.glob("*.ogg")`. -/
def collect_piece_groups (files : List String) (store : List MetaRow) :
    List (String × PieceGroup) :=
  ((pySortedStrings files).foldl (stepGroups store) []).filter (fun kg => 2 ≤ kg.2.tracks.length)

/-! ## Rating handler (`rate`, POST) -/

/-- A row appended to `ratings.csv` (timestamp column omitted; it is taken
from the wall clock and no verified property mentions it). -/
structure RatingRecord where
  filename : String
  score : Int
  ip : String
  email : String
  remark : String
deriving DecidableEq, Repr

/-- The response produced by the `rate` POST handler. -/
inductive RateResponse where
  | badRequest
  | redirectNoRatings (email : String)
  | thanksBatch (email : String) (count : Nat)
  | thanksSingle (email : String)
deriving DecidableEq, Repr

/-- Body of the batch loop for one listed filename: read `score_<f>`, and
when present and nonempty parse it, check `1 <= score <= 10`, and on
success append a rating and bump the submitted count; otherwise skip. -/
def batchStep (form : Form) (ip email : String) (acc : List RatingRecord × Nat) (f : String) :
    List RatingRecord × Nat :=
  match formGet form ("score_" ++ f) with
  | none => acc
  | some s =>
    if s = "" then acc
    else
      match pyInt s with
      | none => acc
      | some n =>
        if 1 ≤ n ∧ n ≤ 10 then
          (acc.1 ++ [⟨f, n, ip, email, pyStrip (formGetD form ("remark_" ++ f) "")⟩], acc.2 + 1)
        else acc

/-- The `rate` POST handler: batch mode iterates the submitted filenames
and writes one rating per valid score, single (legacy) mode validates one
(filename, score) pair and aborts with HTTP 400 on failure.  Returns the
response together with the rating rows appended to the store. -/
def ratePost (form : Form) (ip : String) : RateResponse × List RatingRecord :=
  match formGet form "email" with
  | none => (.badRequest, [])
  | some email =>
    if email = "" then (.badRequest, [])
    else if truthy (formGet form "batch_submit") then
      let filenames := formGetList form "filenames"
      if filenames = [] then (.badRequest, [])
      else
        let out := filenames.foldl (batchStep form ip email) ([], 0)
        if out.2 = 0 then (.redirectNoRatings email, out.1)
        else (.thanksBatch email out.2, out.1)
    else
      let filename? := formGet form "filename"
      let score? := formGet form "score"
      let remark := pyStrip (formGetD form "remark" "")
      if !truthy filename? || !truthy score? then (.badRequest, [])
      else
        match pyInt (score?.getD "") with
        | none => (.badRequest, [])
        | some n =>
          if 1 ≤ n ∧ n ≤ 10 then
            (.thanksSingle email, [⟨filename?.getD "", n, ip, email, remark⟩])
          else (.badRequest, [])

/-- Specification-side description of one batch item: a rating is written
for a listed filename exactly when its submitted score parses as an
integer in `[1, 10]`. -/
def batchItemRecord (form : Form) (ip email : String) (f : String) : Option RatingRecord :=
  match formGet form ("score_" ++ f) with
  | none => none
  | some s =>
    match pyInt s with
    | none => none
    | some n =>
      if 1 ≤ n ∧ n ≤ 10 then
        some ⟨f, n, ip, email, pyStrip (formGetD form ("remark_" ++ f) "")⟩
      else none

/-- A submitted score string is accepted: parses as an integer in `[1, 10]`. -/
def scoreAccepted (s : String) : Bool :=
  match pyInt s with
  | some n => decide (1 ≤ n ∧ n ≤ 10)
  | none => false

/-- A listed batch filename carries a valid score. -/
def batchEntryValid (form : Form) (f : String) : Bool :=
  match formGet form ("score_" ++ f) with
  | some s => scoreAccepted s
  | none => false

/-! ## Upload handler (`upload`, POST) -/

/-- Observable outcome of an `upload` POST: the rendered message, the raw
file persisted under the uploads directory (if any), whether the external
converter was invoked, and the metadata row appended (if any). -/
structure UploadOutcome where
  message : String
  savedFile : Option String
  converterCalled : Bool
  metadataWritten : Option MetaRow
deriving DecidableEq, Repr

/-- The `upload` POST handler.  `secureName` stands for werkzeug's
`secure_filename` and `conv` for the outcome of the two MuseScore
subprocess calls (`none` = success, `some e` = exception text), both
external collaborators.  `file` is the client-supplied filename of the
uploaded file (`none` when no file field was sent). -/
def uploadPost (cfgPassword : String) (secureName : String → String) (conv : Option String)
    (form : Form) (file : Option String) : UploadOutcome :=
  if formGet form "password" ≠ some cfgPassword then
    { message := "Incorrect password.", savedFile := none, converterCalled := false,
      metadataWritten := none }
  else
    match file with
    | none =>
      { message := "No score selected.", savedFile := none, converterCalled := false,
        metadataWritten := none }
    | some clientName =>
      if clientName = "" then
        { message := "No score selected.", savedFile := none, converterCalled := false,
          metadataWritten := none }
      else if !(clientName.data.contains '.' && pyLower (extAfterLastDot clientName) == "mscz") then
        { message := "File type not allowed.", savedFile := none, converterCalled := false,
          metadataWritten := none }
      else
        let filename := secureName clientName
        match conv with
        | some err =>
          { message := "Conversion failed: " ++ err, savedFile := some filename,
            converterCalled := true, metadataWritten := none }
        | none =>
          let model_name := pyStrip (formGetD form "model_name" "")
          let composer := pyStrip (formGetD form "composer" "")
          let piece_name := pyStrip (formGetD form "piece_name" "")
          let md : Option MetaRow :=
            if model_name ≠ "" ∨ composer ≠ "" ∨ piece_name ≠ "" then
              some { filename := pathStem filename ++ ".ogg", model_name := model_name,
                     composer := composer, piece_name := piece_name, score_filename := "" }
            else none
          { message := "✔ Uploaded " ++ filename, savedFile := some filename,
            converterCalled := true, metadataWritten := md }

/-! ## Order lemmas for the Python string comparison -/

theorem listLt_irrefl (a : List Char) : listLt a a = false := by
  induction a with
  | nil => rfl
  | cons c cs ih => simp [listLt, ih]

theorem listLt_asymm (a : List Char) : ∀ b, listLt a b = true → listLt b a = false := by
  induction a with
  | nil =>
    intro b hb
    cases b with
    | nil => simpa [listLt] using hb
    | cons d ds => simp [listLt]
  | cons c cs ih =>
    intro b hb
    cases b with
    | nil => simp [listLt] at hb
    | cons d ds =>
      simp only [listLt] at hb ⊢
      by_cases h1 : c < d
      · have h2 : ¬ d < c := lt_asymm h1
        simp [h1, h2]
      · by_cases h2 : d < c
        · simp [h1, h2] at hb
        · simp only [if_neg h1, if_neg h2] at hb ⊢
          exact ih ds hb

theorem listLt_trans (a : List Char) :
    ∀ b c, listLt a b = true → listLt b c = true → listLt a c = true := by
  induction a with
  | nil =>
    intro b c hab hbc
    cases b with
    | nil => simp [listLt] at hab
    | cons d ds =>
      cases c with
      | nil => simp [listLt] at hbc
      | cons e es => simp [listLt]
  | cons x xs ih =>
    intro b c hab hbc
    cases b with
    | nil => simp [listLt] at hab
    | cons d ds =>
      cases c with
      | nil => simp [listLt] at hbc
      | cons e es =>
        simp only [listLt] at hab hbc ⊢
        by_cases h1 : x < d
        · by_cases h2 : d < e
          · simp [lt_trans h1 h2]
          · by_cases h3 : e < d
            · simp [h2, h3] at hbc
            · have hde : d = e := le_antisymm (not_lt.mp h3) (not_lt.mp h2)
              subst hde
              simp [h1]
        · by_cases h1b : d < x
          · simp [h1, h1b] at hab
          · have hxd : x = d := le_antisymm (not_lt.mp h1b) (not_lt.mp h1)
            subst hxd
            simp only [if_neg h1, if_neg h1b] at hab
            by_cases h2 : x < e
            · simp [h2]
            · by_cases h3 : e < x
              · simp [h2, h3] at hbc
              · simp only [if_neg h2, if_neg h3] at hbc ⊢
                exact ih ds es hab hbc

theorem listLt_antisymm (a : List Char) :
    ∀ b, listLt a b = false → listLt b a = false → a = b := by
  induction a with
  | nil =>
    intro b hab hba
    cases b with
    | nil => rfl
    | cons d ds => simp [listLt] at hab
  | cons x xs ih =>
    intro b hab hba
    cases b with
    | nil => simp [listLt] at hba
    | cons d ds =>
      simp only [listLt] at hab hba
      by_cases h1 : x < d
      · simp [h1] at hab
      · by_cases h2 : d < x
        · simp [h1, h2] at hba
        · have hxd : x = d := le_antisymm (not_lt.mp h2) (not_lt.mp h1)
          subst hxd
          simp only [if_neg h1, if_neg h2] at hab hba
          rw [ih ds hab hba]

theorem pyStrLe_refl (a : String) : pyStrLe a a := listLt_irrefl a.data

theorem pyStrLe_total (a b : String) : pyStrLe a b ∨ pyStrLe b a := by
  unfold pyStrLe pyStrLtB
  by_cases h : listLt b.data a.data = true
  · exact Or.inr (listLt_asymm _ _ h)
  · exact Or.inl (by simpa using h)

theorem pyStrLe_trans (a b c : String) (h1 : pyStrLe a b) (h2 : pyStrLe b c) : pyStrLe a c := by
  unfold pyStrLe pyStrLtB at *
  by_cases hca : listLt c.data a.data = true
  · by_cases hab : listLt a.data b.data = true
    · have hcb := listLt_trans _ _ _ hca hab
      rw [hcb] at h2
      exact absurd h2 (by simp)
    · have hab2 : listLt a.data b.data = false := by simpa using hab
      have hdata : a.data = b.data := listLt_antisymm _ _ hab2 h1
      rw [hdata] at hca
      rw [hca] at h2
      exact absurd h2 (by simp)
  · simpa using hca

theorem strData_inj (a b : String) (h : a.data = b.data) : a = b :=
  congrArg String.mk h

theorem pyStrLe_antisymm (a b : String) (h1 : pyStrLe a b) (h2 : pyStrLe b a) : a = b := by
  unfold pyStrLe pyStrLtB at *
  exact strData_inj _ _ (listLt_antisymm _ _ h2 h1)

theorem pyStrLe_iff (a b : String) : pyStrLe a b ↔ pyStrLt a b ∨ a = b := by
  constructor
  · intro h
    by_cases hab : listLt a.data b.data = true
    · exact Or.inl hab
    · exact Or.inr (strData_inj _ _ (listLt_antisymm _ _ (by simpa using hab) h))
  · intro h
    rcases h with h | h
    · exact listLt_asymm _ _ h
    · subst h
      exact pyStrLe_refl a

/-! ## Stable sorting: model of `list.sort(key=...)` and `sorted(...)` -/

/-- `list.sort(key=kf)`: stable ascending comparison of keys. -/
def keyLe (kf : String → String) (a b : String) : Prop := pyStrLe (kf a) (kf b)

instance (kf : String → String) : DecidableRel (keyLe kf) := fun a b => by
  unfold keyLe
  infer_instance

/-- Sorting by a key with the track filename as tiebreak (the order a
stable sort produces from a filename-ordered input). -/
def lexLe (kf : String → String) (a b : String) : Prop :=
  pyStrLt (kf a) (kf b) ∨ (kf a = kf b ∧ pyStrLe a b)

instance (kf : String → String) : DecidableRel (lexLe kf) := fun a b => by
  unfold lexLe
  infer_instance

theorem orderedInsert_congr (rA rB : String → String → Prop)
    [DecidableRel rA] [DecidableRel rB] (x : String) :
    ∀ l : List String, (∀ y ∈ l, (rA x y ↔ rB x y)) →
      List.orderedInsert rA x l = List.orderedInsert rB x l := by
  intro l
  induction l with
  | nil => intro h; rfl
  | cons y ys ih =>
    intro h
    simp only [List.orderedInsert]
    by_cases hy : rA x y
    · rw [if_pos hy, if_pos ((h y (List.mem_cons_self y ys)).mp hy)]
    · rw [if_neg hy, if_neg (fun hb => hy ((h y (List.mem_cons_self y ys)).mpr hb)),
        ih (fun z hz => h z (List.mem_cons_of_mem y hz))]

theorem insertionSort_congr (rA rB : String → String → Prop)
    [DecidableRel rA] [DecidableRel rB] :
    ∀ l : List String, List.Pairwise (fun a b => rA a b ↔ rB a b) l →
      List.insertionSort rA l = List.insertionSort rB l := by
  intro l
  induction l with
  | nil => intro h; rfl
  | cons x xs ih =>
    intro h
    simp only [List.insertionSort]
    rw [ih (List.Pairwise.of_cons h)]
    apply orderedInsert_congr
    intro y hy
    have hyxs : y ∈ xs := (List.perm_insertionSort rB xs).mem_iff.mp hy
    exact (List.pairwise_cons.mp h).1 y hyxs

theorem keyLe_iff_lexLe_of_le (kf : String → String) (a b : String) (hab : pyStrLe a b) :
    keyLe kf a b ↔ lexLe kf a b := by
  unfold keyLe lexLe
  rw [pyStrLe_iff]
  constructor
  · intro h
    rcases h with h | h
    · exact Or.inl h
    · exact Or.inr ⟨h, hab⟩
  · intro h
    rcases h with h | ⟨h, _⟩
    · exact Or.inl h
    · exact Or.inr h

theorem lexLe_total (kf : String → String) (a b : String) : lexLe kf a b ∨ lexLe kf b a := by
  unfold lexLe
  by_cases h1 : pyStrLt (kf a) (kf b)
  · exact Or.inl (Or.inl h1)
  · by_cases h2 : pyStrLt (kf b) (kf a)
    · exact Or.inr (Or.inl h2)
    · have heq : kf a = kf b := by
        apply strData_inj
        exact listLt_antisymm _ _ (by simpa [pyStrLt, pyStrLtB] using h1)
          (by simpa [pyStrLt, pyStrLtB] using h2)
      rcases pyStrLe_total a b with h | h
      · exact Or.inl (Or.inr ⟨heq, h⟩)
      · exact Or.inr (Or.inr ⟨heq.symm, h⟩)

theorem lexLe_trans (kf : String → String) (a b c : String)
    (h1 : lexLe kf a b) (h2 : lexLe kf b c) : lexLe kf a c := by
  unfold lexLe at *
  rcases h1 with h1 | ⟨h1e, h1le⟩
  · rcases h2 with h2 | ⟨h2e, _⟩
    · exact Or.inl (listLt_trans _ _ _ h1 h2)
    · exact Or.inl (h2e ▸ h1)
  · rcases h2 with h2 | ⟨h2e, h2le⟩
    · exact Or.inl (h1e ▸ h2)
    · exact Or.inr ⟨h1e.trans h2e, pyStrLe_trans _ _ _ h1le h2le⟩

theorem lexLe_antisymm (kf : String → String) (a b : String)
    (h1 : lexLe kf a b) (h2 : lexLe kf b a) : a = b := by
  unfold lexLe at *
  rcases h1 with h1 | ⟨h1e, h1le⟩
  · rcases h2 with h2 | ⟨h2e, _⟩
    · have h3 := listLt_asymm _ _ h1
      exact absurd h2 (by simp [pyStrLt, pyStrLtB, h3])
    · rw [h2e] at h1
      exact absurd h1 (by simp [pyStrLt, pyStrLtB, listLt_irrefl])
  · rcases h2 with h2 | ⟨h2e, h2le⟩
    · rw [h1e] at h2
      exact absurd h2 (by simp [pyStrLt, pyStrLtB, listLt_irrefl])
    · exact pyStrLe_antisymm _ _ h1le h2le

/-! ## Rating page listing (`rate`, GET) -/

/-- Query parameters of a `rate` GET request. -/
structure RateQuery where
  email : Option String
  sort : Option String
  composer : Option String
  piece : Option String
  model : Option String

/-- The filter predicate of the rating page: exact string match on each
nonempty requested composer/piece/model filter. -/
def trackMatches (meta : List MetaRow) (cf pf mf : String) (t : String) : Bool :=
  (cf == "" || (get_file_metadata meta t).composer == cf) &&
  (pf == "" || (get_file_metadata meta t).piece_name == pf) &&
  (mf == "" || (get_file_metadata meta t).model_name == mf)

/-- The `rate` GET handler's final track list: sorted `.ogg` listing,
minus the tracks the email already rated, optionally filtered, then
sorted by the requested key (`list.sort` is modelled by the stable
`List.insertionSort`). -/
def rateGet (files : List String) (ratings : RatingsCsv) (meta : List MetaRow)
    (q : RateQuery) : List String :=
  let all_tracks := pySortedStrings files
  let tracks :=
    match q.email with
    | some e =>
      if e = "" then []
      else all_tracks.filter (fun t => !((get_user_rated_tracks ratings e).contains t))
    | none => []
  let sort_by := (q.sort).getD "filename"
  let cf := (q.composer).getD ""
  let pf := (q.piece).getD ""
  let mf := (q.model).getD ""
  let tracks2 :=
    if cf ≠ "" ∨ pf ≠ "" ∨ mf ≠ "" then tracks.filter (trackMatches meta cf pf mf)
    else tracks
  if sort_by = "composer" then
    List.insertionSort (keyLe (fun t => (get_file_metadata meta t).composer)) tracks2
  else if sort_by = "piece" then
    List.insertionSort (keyLe (fun t => (get_file_metadata meta t).piece_name)) tracks2
  else if sort_by = "model" then
    List.insertionSort (keyLe (fun t => (get_file_metadata meta t).model_name)) tracks2
  else
    List.insertionSort (keyLe (fun t => t)) tracks2

/-- The sort key selected by the `sort` query parameter (filename is the
default for any unrecognized value). -/
def sortKeyOf (meta : List MetaRow) (sort_by : String) : String → String :=
  if sort_by = "composer" then fun t => (get_file_metadata meta t).composer
  else if sort_by = "piece" then fun t => (get_file_metadata meta t).piece_name
  else if sort_by = "model" then fun t => (get_file_metadata meta t).model_name
  else fun t => t

/-- The track list as §4.4 of the spec describes it: the full track
listing minus the Rated-Set Lookup result for the email, filtered by
exact match on the optional composer/piece/model filters, and sorted by
the requested key with the filename as the stable tiebreak. -/
def rateOfferSpec (files : List String) (ratings : RatingsCsv) (meta : List MetaRow)
    (e sort_by cf pf mf : String) : List String :=
  let offered := files.filter (fun t => !((get_user_rated_tracks ratings e).contains t))
  let offered2 := offered.filter (trackMatches meta cf pf mf)
  List.insertionSort (lexLe (sortKeyOf meta sort_by)) offered2

theorem pySortedStrings_pairwise (l : List String) : (pySortedStrings l).Pairwise pyStrLe :=
  @List.sorted_insertionSort String pyStrLe _ ⟨pyStrLe_total⟩ ⟨fun a b c => pyStrLe_trans a b c⟩ l

theorem insertionSort_key_eq_lex (kf : String → String) (l : List String)
    (hl : l.Pairwise pyStrLe) :
    List.insertionSort (keyLe kf) l = List.insertionSort (lexLe kf) l :=
  insertionSort_congr _ _ l (hl.imp (fun h => keyLe_iff_lexLe_of_le kf _ _ h))

theorem sorted_filtered_sort_eq (kf : String → String) (files : List String)
    (p : String → Bool) :
    List.insertionSort (keyLe kf) ((pySortedStrings files).filter p)
      = List.insertionSort (lexLe kf) (files.filter p) := by
  have hpair : ((pySortedStrings files).filter p).Pairwise pyStrLe :=
    (pySortedStrings_pairwise files).sublist (List.filter_sublist _)
  rw [insertionSort_key_eq_lex kf _ hpair]
  have hTS : List.Perm ((pySortedStrings files).filter p) (files.filter p) :=
    (List.perm_insertionSort pyStrLe files).filter p
  have hperm : List.Perm (List.insertionSort (lexLe kf) ((pySortedStrings files).filter p))
      (List.insertionSort (lexLe kf) (files.filter p)) :=
    ((List.perm_insertionSort (lexLe kf) _).trans hTS).trans
      (List.perm_insertionSort (lexLe kf) _).symm
  have hs1 : ((List.insertionSort (lexLe kf) ((pySortedStrings files).filter p))).Pairwise (lexLe kf) :=
    @List.sorted_insertionSort String (lexLe kf) _ ⟨lexLe_total kf⟩
      ⟨fun a b c => lexLe_trans kf a b c⟩ _
  have hs2 : ((List.insertionSort (lexLe kf) (files.filter p))).Pairwise (lexLe kf) :=
    @List.sorted_insertionSort String (lexLe kf) _ ⟨lexLe_total kf⟩
      ⟨fun a b c => lexLe_trans kf a b c⟩ _
  exact @List.eq_of_perm_of_sorted String (lexLe kf) ⟨fun a b => lexLe_antisymm kf a b⟩
    _ _ hperm hs1 hs2

theorem rateSortBranches (meta : List MetaRow) (sort_by : String) (t2 : List String) :
    (if sort_by = "composer" then
      List.insertionSort (keyLe (fun t => (get_file_metadata meta t).composer)) t2
    else if sort_by = "piece" then
      List.insertionSort (keyLe (fun t => (get_file_metadata meta t).piece_name)) t2
    else if sort_by = "model" then
      List.insertionSort (keyLe (fun t => (get_file_metadata meta t).model_name)) t2
    else
      List.insertionSort (keyLe (fun t => t)) t2)
    = List.insertionSort (keyLe (sortKeyOf meta sort_by)) t2 := by
  unfold sortKeyOf
  split_ifs <;> rfl

/-- C7, generic form: for any email and query parameters, the handler's
final track list equals the spec's description. -/
theorem rateGet_eq_offer_spec (files : List String) (ratings : RatingsCsv)
    (meta : List MetaRow) (e : String) (so co pi mo : Option String) (hne : e ≠ "") :
    rateGet files ratings meta ⟨some e, so, co, pi, mo⟩
      = rateOfferSpec files ratings meta e (so.getD "filename") (co.getD "") (pi.getD "")
          (mo.getD "") := by
  unfold rateGet rateOfferSpec
  simp only [if_neg hne]
  by_cases hf : (co.getD "") ≠ "" ∨ (pi.getD "") ≠ "" ∨ (mo.getD "") ≠ ""
  · rw [if_pos hf]
    rw [List.filter_filter, List.filter_filter]
    rw [rateSortBranches]
    exact sorted_filtered_sort_eq _ files _
  · rw [if_neg hf]
    push_neg at hf
    obtain ⟨hc, hp, hm⟩ := hf
    have hmatch : ∀ l : List String,
        l.filter (trackMatches meta (co.getD "") (pi.getD "") (mo.getD "")) = l := by
      intro l
      apply List.filter_eq_self.mpr
      intro a _
      simp [trackMatches, hc, hp, hm]
    rw [hmatch]
    rw [rateSortBranches]
    exact sorted_filtered_sort_eq _ files _

/-! ## Batch rating lemmas -/

theorem pyInt_empty : pyInt "" = none := by decide

theorem batch_foldl_spec (form : Form) (ip email : String) (fs : List String) :
    ∀ (recs : List RatingRecord) (cnt : Nat),
      fs.foldl (batchStep form ip email) (recs, cnt)
        = (recs ++ fs.filterMap (batchItemRecord form ip email),
           cnt + fs.countP (batchEntryValid form)) := by
  induction fs with
  | nil => intro recs cnt; simp
  | cons f fs ih =>
    intro recs cnt
    simp only [List.foldl_cons, List.filterMap_cons, List.countP_cons]
    cases hg : formGet form ("score_" ++ f) with
    | none =>
      have hstep : batchStep form ip email (recs, cnt) f = (recs, cnt) := by
        simp [batchStep, hg]
      have hitem : batchItemRecord form ip email f = none := by
        simp [batchItemRecord, hg]
      have hvalid : batchEntryValid form f = false := by
        simp [batchEntryValid, hg]
      rw [hstep, hitem, hvalid, ih]
      simp
    | some s =>
      by_cases hse : s = ""
      · subst hse
        have hstep : batchStep form ip email (recs, cnt) f = (recs, cnt) := by
          simp [batchStep, hg]
        have hitem : batchItemRecord form ip email f = none := by
          simp [batchItemRecord, hg, pyInt_empty]
        have hvalid : batchEntryValid form f = false := by
          simp [batchEntryValid, scoreAccepted, hg, pyInt_empty]
        rw [hstep, hitem, hvalid, ih]
        simp
      · cases hpi : pyInt s with
        | none =>
          have hstep : batchStep form ip email (recs, cnt) f = (recs, cnt) := by
            simp [batchStep, hg, hse, hpi]
          have hitem : batchItemRecord form ip email f = none := by
            simp [batchItemRecord, hg, hpi]
          have hvalid : batchEntryValid form f = false := by
            simp [batchEntryValid, scoreAccepted, hg, hpi]
          rw [hstep, hitem, hvalid, ih]
          simp
        | some n =>
          by_cases hr : 1 ≤ n ∧ n ≤ 10
          · have hstep : batchStep form ip email (recs, cnt) f
                = (recs ++ [⟨f, n, ip, email, pyStrip (formGetD form ("remark_" ++ f) "")⟩],
                   cnt + 1) := by
              simp [batchStep, hg, hse, hpi, hr]
            have hitem : batchItemRecord form ip email f
                = some ⟨f, n, ip, email, pyStrip (formGetD form ("remark_" ++ f) "")⟩ := by
              simp [batchItemRecord, hg, hpi, hr]
            have hvalid : batchEntryValid form f = true := by
              simp [batchEntryValid, scoreAccepted, hg, hpi, hr]
            rw [hstep, hitem, hvalid, ih]
            simp only [Prod.mk.injEq, if_true]
            constructor
            · simp
            · omega
          · have hstep : batchStep form ip email (recs, cnt) f = (recs, cnt) := by
              simp [batchStep, hg, hse, hpi, hr]
            have hitem : batchItemRecord form ip email f = none := by
              simp [batchItemRecord, hg, hpi, hr]
            have hvalid : batchEntryValid form f = false := by
              simp [batchEntryValid, scoreAccepted, hg, hpi, hr]
            rw [hstep, hitem, hvalid, ih]
            simp

theorem filterMap_length_eq_countP (form : Form) (ip email : String) (fs : List String) :
    (fs.filterMap (batchItemRecord form ip email)).length
      = fs.countP (batchEntryValid form) := by
  induction fs with
  | nil => rfl
  | cons f fs ih =>
    simp only [List.filterMap_cons, List.countP_cons]
    cases hg : formGet form ("score_" ++ f) with
    | none => simp [batchItemRecord, batchEntryValid, hg, ih]
    | some s =>
      cases hpi : pyInt s with
      | none => simp [batchItemRecord, batchEntryValid, scoreAccepted, hg, hpi, ih]
      | some n =>
        by_cases hr : 1 ≤ n ∧ n ≤ 10
        · simp [batchItemRecord, batchEntryValid, scoreAccepted, hg, hpi, hr, ih]
        · simp [batchItemRecord, batchEntryValid, scoreAccepted, hg, hpi, hr, ih]

theorem ratePost_batch (form : Form) (ip email : String)
    (hemail : formGet form "email" = some email) (hne : email ≠ "")
    (hbatch : truthy (formGet form "batch_submit") = true)
    (hfns : formGetList form "filenames" ≠ []) :
    ratePost form ip =
      (if (formGetList form "filenames").countP (batchEntryValid form) = 0
        then RateResponse.redirectNoRatings email
        else RateResponse.thanksBatch email
              ((formGetList form "filenames").countP (batchEntryValid form)),
       (formGetList form "filenames").filterMap (batchItemRecord form ip email)) := by
  unfold ratePost
  rw [hemail]
  simp only [if_neg hne, hbatch, if_true, if_neg hfns]
  rw [batch_foldl_spec form ip email _ [] 0]
  simp only [List.nil_append, Nat.zero_add]
  by_cases h0 : (formGetList form "filenames").countP (batchEntryValid form) = 0
  · rw [if_pos h0, if_pos h0]
  · rw [if_neg h0, if_neg h0]

/-! ## Grouping lemmas -/

/-- Effect of one file on the (optional) group stored under its key. -/
def bumpGroup (store : List MetaRow) (f : String) (og : Option PieceGroup) : PieceGroup :=
  updGroup (mkPieceEntry store f) (og.getD (initGroup (pidOf store f)))

theorem assocFind_nil (k2 : String) : assocFind [] k2 = none := rfl

theorem assocFind_cons (k0 : String) (g0 : PieceGroup) (rest : List (String × PieceGroup))
    (k2 : String) :
    assocFind ((k0, g0) :: rest) k2 = if k0 = k2 then some g0 else assocFind rest k2 := by
  simp only [assocFind, List.find?]
  cases hb : (k0 == k2) with
  | true =>
    have h : k0 = k2 := by simpa using hb
    simp [h]
  | false =>
    have h : ¬ k0 = k2 := by simpa using hb
    simp [h]

theorem assocUpdate_cons (k0 : String) (g0 : PieceGroup) (rest : List (String × PieceGroup))
    (k : String) (g2 : PieceGroup) :
    assocUpdate ((k0, g0) :: rest) k g2
      = if k0 = k then (k, g2) :: rest else (k0, g0) :: assocUpdate rest k g2 := by
  simp only [assocUpdate]
  cases hb : (k0 == k) with
  | true =>
    have h : k0 = k := by simpa using hb
    simp [h]
  | false =>
    have h : ¬ k0 = k := by simpa using hb
    simp [h]

theorem assocFind_update (gs : List (String × PieceGroup)) (k : String) (g2 : PieceGroup) :
    ∀ k2, assocFind (assocUpdate gs k g2) k2 =
      if k2 = k then (if (assocFind gs k).isSome then some g2 else none)
      else assocFind gs k2 := by
  induction gs with
  | nil =>
    intro k2
    by_cases h : k2 = k <;> simp [assocFind, assocUpdate, h]
  | cons kg rest ih =>
    obtain ⟨k0, g0⟩ := kg
    intro k2
    rw [assocUpdate_cons]
    by_cases hk : k0 = k
    · subst hk
      rw [if_pos rfl]
      by_cases h2 : k2 = k0
      · subst h2
        simp [assocFind_cons]
      · have h3 : ¬ k0 = k2 := fun he => h2 he.symm
        simp [assocFind_cons, h2, h3]
    · rw [if_neg hk]
      by_cases h3 : k0 = k2
      · subst h3
        simp [assocFind_cons, fun he : k0 = k => hk he]
      · rw [assocFind_cons, if_neg h3, ih k2, assocFind_cons k0 g0 rest k2,
          assocFind_cons k0 g0 rest k, if_neg h3, if_neg hk]

theorem assocFind_append_single (gs : List (String × PieceGroup)) (k : String) (g2 : PieceGroup) :
    ∀ k2, assocFind (gs ++ [(k, g2)]) k2 =
      match assocFind gs k2 with
      | some g => some g
      | none => if k = k2 then some g2 else none := by
  induction gs with
  | nil =>
    intro k2
    show assocFind [(k, g2)] k2 = _
    rw [show ([(k, g2)] : List (String × PieceGroup)) = (k, g2) :: [] from rfl, assocFind_cons]
    rfl
  | cons kg rest ih =>
    obtain ⟨k0, g0⟩ := kg
    intro k2
    rw [List.cons_append, assocFind_cons, assocFind_cons]
    by_cases h3 : k0 = k2
    · rw [if_pos h3, if_pos h3]
    · rw [if_neg h3, if_neg h3, ih k2]

theorem assocFind_none_not_mem (gs : List (String × PieceGroup)) (k : String)
    (h : assocFind gs k = none) : k ∉ gs.map Prod.fst := by
  induction gs with
  | nil => simp
  | cons kg rest ih =>
    obtain ⟨k0, g0⟩ := kg
    rw [assocFind_cons] at h
    by_cases h3 : k0 = k
    · rw [if_pos h3] at h
      exact absurd h (by simp)
    · rw [if_neg h3] at h
      simp only [List.map_cons, List.mem_cons]
      push_neg
      exact ⟨fun he => h3 he.symm, ih h⟩

theorem assocFind_step (store : List MetaRow) (gs : List (String × PieceGroup)) (f : String) :
    ∀ k, assocFind (stepGroups store gs f) k =
      if entryKey store f = k then some (bumpGroup store f (assocFind gs k))
      else assocFind gs k := by
  intro k
  simp only [stepGroups, entryKey]
  cases hfind : assocFind gs (pidOf store f).key with
  | some g =>
    rw [assocFind_update]
    by_cases hk : (pidOf store f).key = k
    · rw [if_pos hk.symm, if_pos hk]
      rw [show assocFind gs k = some g from hk ▸ hfind]
      simp [bumpGroup, hfind]
    · rw [if_neg (fun he : k = (pidOf store f).key => hk he.symm), if_neg hk]
  | none =>
    rw [assocFind_append_single]
    by_cases hk : (pidOf store f).key = k
    · rw [show assocFind gs k = none from hk ▸ hfind]
      simp [hk, bumpGroup]
    · cases h2 : assocFind gs k with
      | some g => simp [hk]
      | none => simp [hk]

theorem assocFind_foldl (store : List MetaRow) (fs : List String) :
    ∀ (gs : List (String × PieceGroup)) (k : String),
      assocFind (fs.foldl (stepGroups store) gs) k =
        (fs.filter (fun f => entryKey store f == k)).foldl
          (fun og f => some (bumpGroup store f og)) (assocFind gs k) := by
  induction fs with
  | nil => intro gs k; rfl
  | cons f fs ih =>
    intro gs k
    simp only [List.foldl_cons, List.filter_cons]
    by_cases hk : entryKey store f = k
    · rw [if_pos (by simp [hk])]
      simp only [List.foldl_cons]
      rw [ih, assocFind_step, if_pos hk]
    · rw [if_neg (by simp [hk])]
      rw [ih, assocFind_step, if_neg hk]

/-- Label update applied per member (the `display_label` part of the loop). -/
def labelStep (e : PieceEntry) (lbl : String) : String :=
  if e.composer ≠ "" ∧ e.piece_name ≠ "" then e.composer ++ " — " ++ e.piece_name
  else if e.piece_name ≠ "" ∧ lbl = "" then e.piece_name
  else lbl

/-- Backfill of an empty group field from a member value. -/
def backfillStep (x c : String) : String := if x ≠ "" ∧ c = "" then x else c

/-- First nonempty string of a list (`""` if none). -/
def firstNonEmptyStr (l : List String) : String :=
  ((l.filter (fun x => x ≠ "")).head?).getD ""

theorem updGroup_tracks (e : PieceEntry) (g : PieceGroup) :
    (updGroup e g).tracks = g.tracks ++ [e] := by
  simp only [updGroup]
  split_ifs <;> rfl

theorem updGroup_label (e : PieceEntry) (g : PieceGroup) :
    (updGroup e g).display_label = labelStep e g.display_label := by
  simp only [updGroup, labelStep]
  split_ifs <;> rfl

theorem updGroup_composer (e : PieceEntry) (g : PieceGroup) :
    (updGroup e g).composer = backfillStep e.composer g.composer := by
  simp only [updGroup, backfillStep]
  split_ifs <;> rfl

theorem updGroup_piece (e : PieceEntry) (g : PieceGroup) :
    (updGroup e g).piece_name = backfillStep e.piece_name g.piece_name := by
  simp only [updGroup, backfillStep]
  split_ifs <;> rfl

/-- Group-level fold over the members of one bucket. -/
def groupFoldG (store : List MetaRow) (g : PieceGroup) (ms : List String) : PieceGroup :=
  ms.foldl (fun g f => updGroup (mkPieceEntry store f) g) g

theorem foldl_some_bump (store : List MetaRow) (ms : List String) :
    ∀ g : PieceGroup,
      ms.foldl (fun og f => some (bumpGroup store f og)) (some g) = some (groupFoldG store g ms) := by
  induction ms with
  | nil => intro g; rfl
  | cons f ms ih =>
    intro g
    simp only [List.foldl_cons, groupFoldG]
    rw [show bumpGroup store f (some g) = updGroup (mkPieceEntry store f) g from rfl]
    exact ih _

theorem groupFoldG_tracks (store : List MetaRow) (ms : List String) :
    ∀ g : PieceGroup, (groupFoldG store g ms).tracks = g.tracks ++ ms.map (mkPieceEntry store) := by
  induction ms with
  | nil => intro g; simp [groupFoldG]
  | cons f ms ih =>
    intro g
    simp only [groupFoldG, List.foldl_cons, List.map_cons]
    rw [show (ms.foldl (fun g f => updGroup (mkPieceEntry store f) g)
        (updGroup (mkPieceEntry store f) g)) = groupFoldG store (updGroup (mkPieceEntry store f) g) ms from rfl]
    rw [ih, updGroup_tracks]
    simp

theorem groupFoldG_label (store : List MetaRow) (ms : List String) :
    ∀ g : PieceGroup, (groupFoldG store g ms).display_label
      = (ms.map (mkPieceEntry store)).foldl (fun lbl e => labelStep e lbl) g.display_label := by
  induction ms with
  | nil => intro g; rfl
  | cons f ms ih =>
    intro g
    simp only [groupFoldG, List.foldl_cons, List.map_cons]
    rw [show (ms.foldl (fun g f => updGroup (mkPieceEntry store f) g)
        (updGroup (mkPieceEntry store f) g)) = groupFoldG store (updGroup (mkPieceEntry store f) g) ms from rfl]
    rw [ih, updGroup_label]

theorem groupFoldG_composer (store : List MetaRow) (ms : List String) :
    ∀ g : PieceGroup, (groupFoldG store g ms).composer
      = (ms.map (mkPieceEntry store)).foldl (fun c e => backfillStep e.composer c) g.composer := by
  induction ms with
  | nil => intro g; rfl
  | cons f ms ih =>
    intro g
    simp only [groupFoldG, List.foldl_cons, List.map_cons]
    rw [show (ms.foldl (fun g f => updGroup (mkPieceEntry store f) g)
        (updGroup (mkPieceEntry store f) g)) = groupFoldG store (updGroup (mkPieceEntry store f) g) ms from rfl]
    rw [ih, updGroup_composer]

theorem groupFoldG_piece (store : List MetaRow) (ms : List String) :
    ∀ g : PieceGroup, (groupFoldG store g ms).piece_name
      = (ms.map (mkPieceEntry store)).foldl (fun c e => backfillStep e.piece_name c) g.piece_name := by
  induction ms with
  | nil => intro g; rfl
  | cons f ms ih =>
    intro g
    simp only [groupFoldG, List.foldl_cons, List.map_cons]
    rw [show (ms.foldl (fun g f => updGroup (mkPieceEntry store f) g)
        (updGroup (mkPieceEntry store f) g)) = groupFoldG store (updGroup (mkPieceEntry store f) g) ms from rfl]
    rw [ih, updGroup_piece]

theorem firstNonEmptyStr_cons (x : String) (l : List String) :
    firstNonEmptyStr (x :: l) = if x ≠ "" then x else firstNonEmptyStr l := by
  by_cases h : x = ""
  · simp [firstNonEmptyStr, List.filter_cons, h]
  · simp [firstNonEmptyStr, List.filter_cons, h]

theorem backfill_foldl (l : List String) :
    ∀ c0, l.foldl (fun c x => backfillStep x c) c0 = if c0 ≠ "" then c0 else firstNonEmptyStr l := by
  induction l with
  | nil =>
    intro c0
    by_cases h : c0 = "" <;> simp [firstNonEmptyStr, h]
  | cons x l ih =>
    intro c0
    simp only [List.foldl_cons]
    rw [ih, firstNonEmptyStr_cons]
    by_cases h : c0 = ""
    · subst h
      by_cases hx : x = ""
      · simp [backfillStep, hx]
      · simp [backfillStep, hx]
    · simp [backfillStep, h]

/-! ## Key shapes and label analysis -/

theorem str_append_ne_left (a b : String) (h : a ≠ "") : a ++ b ≠ "" := by
  intro hc
  have h2 := congrArg String.data hc
  simp [String.data_append] at h2
  exact h (strData_inj a "" h2.1)

theorem shape_piece_ne_file (p s : String) : "piece::" ++ p ≠ "file::" ++ s := by
  intro h
  have h2 := congrArg String.data h
  simp [String.data_append] at h2

theorem shape_full_ne_file (c p s : String) :
    "composer::" ++ c ++ "|piece::" ++ p ≠ "file::" ++ s := by
  intro h
  have h2 := congrArg String.data h
  simp [String.data_append] at h2

theorem shape_conly_ne_file (c s : String) : "composer_only::" ++ c ≠ "file::" ++ s := by
  intro h
  have h2 := congrArg String.data h
  simp [String.data_append] at h2

theorem shape_piece_ne_conly (p c : String) : "piece::" ++ p ≠ "composer_only::" ++ c := by
  intro h
  have h2 := congrArg String.data h
  simp [String.data_append] at h2

theorem shape_file_inj (a b : String) (h : "file::" ++ a = "file::" ++ b) : a = b := by
  have h2 := congrArg String.data h
  simp [String.data_append] at h2
  exact strData_inj _ _ h2

/-- The four shapes a derived piece identity can take, with the key and
label pinned in terms of the output composer/piece fields. -/
theorem derive_shape (f : String) (m : MetaRow) :
    ((derivePieceIdentity f m).composer ≠ "" ∧ (derivePieceIdentity f m).piece ≠ ""
       ∧ (derivePieceIdentity f m).key
           = "composer::" ++ (derivePieceIdentity f m).composer ++ "|piece::"
               ++ (derivePieceIdentity f m).piece
       ∧ (derivePieceIdentity f m).label
           = (derivePieceIdentity f m).composer ++ " — " ++ (derivePieceIdentity f m).piece)
    ∨ ((derivePieceIdentity f m).composer = "" ∧ (derivePieceIdentity f m).piece ≠ ""
       ∧ ((derivePieceIdentity f m).key = "piece::" ++ (derivePieceIdentity f m).piece
           ∨ (derivePieceIdentity f m).key = "file::" ++ (derivePieceIdentity f m).piece)
       ∧ (derivePieceIdentity f m).label = (derivePieceIdentity f m).piece)
    ∨ ((derivePieceIdentity f m).composer ≠ "" ∧ (derivePieceIdentity f m).piece = ""
       ∧ (derivePieceIdentity f m).key = "composer_only::" ++ (derivePieceIdentity f m).composer
       ∧ (derivePieceIdentity f m).label = (derivePieceIdentity f m).composer)
    ∨ ((derivePieceIdentity f m).composer = "" ∧ (derivePieceIdentity f m).piece = ""
       ∧ (derivePieceIdentity f m).key = "file::" ++ (derivePieceIdentity f m).piece
       ∧ (derivePieceIdentity f m).label = (derivePieceIdentity f m).piece) := by
  simp only [derivePieceIdentity]
  by_cases h1 : pyStrip (if m.piece_name ≠ "" then m.piece_name else m.score_filename) ≠ ""
      ∧ pyStrip m.composer ≠ ""
  · rw [if_pos h1]
    exact Or.inl ⟨h1.2, h1.1, rfl, rfl⟩
  · rw [if_neg h1]
    by_cases h2 : pyStrip (if m.piece_name ≠ "" then m.piece_name else m.score_filename) ≠ ""
    · rw [if_pos h2]
      have hc : pyStrip m.composer = "" := by
        by_contra hc
        exact h1 ⟨h2, hc⟩
      exact Or.inr (Or.inl ⟨hc, h2, Or.inl rfl, rfl⟩)
    · rw [if_neg h2]
      have hp : pyStrip (if m.piece_name ≠ "" then m.piece_name else m.score_filename) = "" := by
        by_contra hp
        exact h2 hp
      by_cases h3 : pyStrip m.composer ≠ ""
      · rw [if_pos h3]
        exact Or.inr (Or.inr (Or.inl ⟨h3, hp, rfl, rfl⟩))
      · rw [if_neg h3]
        have hc : pyStrip m.composer = "" := by
          by_contra hc
          exact h3 hc
        by_cases hs : pathStem f = ""
        · exact Or.inr (Or.inr (Or.inr ⟨hc, hs, rfl, rfl⟩))
        · exact Or.inr (Or.inl ⟨hc, hs, Or.inr rfl, rfl⟩)

/-- Richness of a member's identity data: composer+piece beats piece-only
beats composer-only beats nothing. -/
def richness (e : PieceEntry) : Nat :=
  if e.composer ≠ "" ∧ e.piece_name ≠ "" then 3
  else if e.piece_name ≠ "" then 2
  else if e.composer ≠ "" then 1
  else 0

/-- A member supplying both composer and piece name. -/
def isFullE (e : PieceEntry) : Bool := e.composer ≠ "" && e.piece_name ≠ ""

theorem richness_le_three (e : PieceEntry) : richness e ≤ 3 := by
  simp only [richness]
  split_ifs <;> omega

theorem richness_le_two_of_not_full (e : PieceEntry) (h : isFullE e = false) :
    richness e ≤ 2 := by
  have hf : ¬ (e.composer ≠ "" ∧ e.piece_name ≠ "") := by
    intro hc
    simp [isFullE, hc.1, hc.2] at h
  simp only [richness, if_neg hf]
  split_ifs <;> omega

theorem labelFold_stable (es : List PieceEntry) :
    ∀ l, (∀ e ∈ es, isFullE e = false) → l ≠ "" →
      es.foldl (fun lbl e => labelStep e lbl) l = l := by
  induction es with
  | nil => intro l _ _; rfl
  | cons e0 rest ih =>
    intro l hnf hl
    simp only [List.foldl_cons]
    have h0 := hnf e0 (List.mem_cons_self e0 rest)
    have hfull : ¬ (e0.composer ≠ "" ∧ e0.piece_name ≠ "") := by
      intro hc
      simp [isFullE, hc.1, hc.2] at h0
    have hsec : ¬ (e0.piece_name ≠ "" ∧ l = "") := fun hc => hl hc.2
    rw [show labelStep e0 l = l from by simp [labelStep, hfull, hsec]]
    exact ih l (fun e he => hnf e (List.mem_cons_of_mem e0 he)) hl

theorem labelFold_nopiece (es : List PieceEntry) :
    ∀ l, (∀ e ∈ es, e.piece_name = "") →
      es.foldl (fun lbl e => labelStep e lbl) l = l := by
  induction es with
  | nil => intro l _; rfl
  | cons e0 rest ih =>
    intro l hnp
    simp only [List.foldl_cons]
    have h0 := hnp e0 (List.mem_cons_self e0 rest)
    have hfull : ¬ (e0.composer ≠ "" ∧ e0.piece_name ≠ "") := fun hc => hc.2 h0
    have hsec : ¬ (e0.piece_name ≠ "" ∧ l = "") := fun hc => hc.1 h0
    rw [show labelStep e0 l = l from by simp [labelStep, hfull, hsec]]
    exact ih l (fun e he => hnp e (List.mem_cons_of_mem e0 he))

theorem labelFold_lastFull (es : List PieceEntry) :
    ∀ l e, (es.filter isFullE).getLast? = some e →
      es.foldl (fun lbl e => labelStep e lbl) l
        = e.composer ++ " — " ++ e.piece_name := by
  induction es with
  | nil => intro l e h; simp at h
  | cons e0 rest ih =>
    intro l e h
    simp only [List.filter_cons] at h
    by_cases hf : isFullE e0 = true
    · rw [if_pos hf] at h
      cases hrest : rest.filter isFullE with
      | nil =>
        rw [hrest] at h
        simp at h
        subst h
        simp only [List.foldl_cons]
        have hfull : e0.composer ≠ "" ∧ e0.piece_name ≠ "" := by
          simpa [isFullE] using hf
        rw [show labelStep e0 l = e0.composer ++ " — " ++ e0.piece_name from by
          simp [labelStep, hfull]]
        apply labelFold_stable
        · intro e2 he2
          have := (List.filter_eq_nil.mp hrest) e2 he2
          simpa using this
        · exact str_append_ne_left _ _ (str_append_ne_left _ _ hfull.1)
      | cons x xs =>
        have h2 : (rest.filter isFullE).getLast? = some e := by
          rw [hrest]
          rw [hrest] at h
          simpa using h
        simp only [List.foldl_cons]
        exact ih _ e h2
    · rw [if_neg hf] at h
      simp only [List.foldl_cons]
      exact ih _ e h

/-! ## Bucket characterization -/

/-- The sorted files that fall into the bucket of a given key. -/
def membersOf (files : List String) (store : List MetaRow) (k : String) : List String :=
  (pySortedStrings files).filter (fun f => entryKey store f == k)

theorem collect_lookup (files : List String) (store : List MetaRow) (k : String) :
    assocFind ((pySortedStrings files).foldl (stepGroups store) []) k
      = match membersOf files store k with
        | [] => none
        | m :: rest =>
          some (groupFoldG store
            (updGroup (mkPieceEntry store m) (initGroup (pidOf store m))) rest) := by
  rw [assocFind_foldl]
  rw [show assocFind [] k = none from rfl]
  rw [show ((pySortedStrings files).filter (fun f => entryKey store f == k))
      = membersOf files store k from rfl]
  cases hms : membersOf files store k with
  | nil => rfl
  | cons m rest =>
    simp only [List.foldl_cons]
    rw [show bumpGroup store m none
        = updGroup (mkPieceEntry store m) (initGroup (pidOf store m)) from rfl]
    exact foldl_some_bump store rest _

theorem assocUpdate_keys (gs : List (String × PieceGroup)) (k : String) (g2 : PieceGroup) :
    (assocUpdate gs k g2).map Prod.fst = gs.map Prod.fst := by
  induction gs with
  | nil => rfl
  | cons kg rest ih =>
    obtain ⟨k0, g0⟩ := kg
    rw [assocUpdate_cons]
    by_cases h : k0 = k
    · rw [if_pos h]
      simp [h]
    · rw [if_neg h]
      simp [ih]

theorem step_keys_nodup (store : List MetaRow) (gs : List (String × PieceGroup)) (f : String)
    (h : (gs.map Prod.fst).Nodup) : ((stepGroups store gs f).map Prod.fst).Nodup := by
  simp only [stepGroups]
  cases hfind : assocFind gs (pidOf store f).key with
  | some g =>
    rw [assocUpdate_keys]
    exact h
  | none =>
    have hnm := assocFind_none_not_mem gs _ hfind
    rw [List.map_append]
    rw [List.nodup_append]
    refine ⟨h, by simp, ?_⟩
    intro a ha
    simp only [List.map_cons, List.map_nil, List.mem_singleton]
    intro he
    exact hnm (he ▸ ha)

theorem foldl_keys_nodup (store : List MetaRow) (fs : List String) :
    ∀ gs, (gs.map Prod.fst).Nodup → (((fs.foldl (stepGroups store) gs)).map Prod.fst).Nodup := by
  induction fs with
  | nil => intro gs h; exact h
  | cons f fs ih =>
    intro gs h
    simp only [List.foldl_cons]
    exact ih _ (step_keys_nodup store gs f h)

theorem assocFind_of_mem_nodup (gs : List (String × PieceGroup)) :
    ∀ (k : String) (g : PieceGroup), (k, g) ∈ gs → (gs.map Prod.fst).Nodup →
      assocFind gs k = some g := by
  induction gs with
  | nil => intro k g h _; simp at h
  | cons kg rest ih =>
    obtain ⟨k0, g0⟩ := kg
    intro k g hmem hnd
    rcases List.mem_cons.mp hmem with he | he
    · cases he
      rw [assocFind_cons, if_pos rfl]
    · have hk0 : k0 ≠ k := by
        intro he0
        subst he0
        have hkm : k0 ∈ rest.map Prod.fst := by
          have := List.mem_map_of_mem Prod.fst he
          simpa using this
        exact (List.nodup_cons.mp hnd).1 hkm
      rw [assocFind_cons, if_neg hk0]
      exact ih k g he (List.nodup_cons.mp hnd).2

theorem assocFind_mem (gs : List (String × PieceGroup)) (k : String) (g : PieceGroup)
    (h : assocFind gs k = some g) : (k, g) ∈ gs := by
  unfold assocFind at h
  cases hf : gs.find? (fun kg => kg.1 == k) with
  | none =>
    rw [hf] at h
    simp at h
  | some kg =>
    rw [hf] at h
    simp at h
    have hmem := List.mem_of_find?_eq_some hf
    have hp := List.find?_some hf
    have hk : kg.1 = k := by simpa using hp
    have hkg : kg = (k, g) := by
      obtain ⟨k1, g1⟩ := kg
      simp_all
    rw [← hkg]
    exact hmem

theorem members_countP (files : List String) (store : List MetaRow) (k : String) :
    files.countP (fun f => entryKey store f == k) = (membersOf files store k).length := by
  rw [membersOf, ← List.countP_eq_length_filter]
  exact ((List.perm_insertionSort pyStrLe files).countP_eq _).symm

theorem members_key (files : List String) (store : List MetaRow) (k : String) (f : String)
    (h : f ∈ membersOf files store k) : entryKey store f = k := by
  have := (List.mem_filter.mp h).2
  simpa using this

/-- C4: every arena-eligible piece group has at least two member tracks,
and a key appears among the eligible groups exactly when at least two
listed files derive that key. -/
theorem claim_C4_two_member_groups (files : List String) (store : List MetaRow) :
    (∀ kg ∈ collect_piece_groups files store, 2 ≤ kg.2.tracks.length)
    ∧ (∀ k : String, (∃ g, (k, g) ∈ collect_piece_groups files store)
        ↔ 2 ≤ files.countP (fun f => entryKey store f == k)) := by
  constructor
  · intro kg hmem
    have h := (List.mem_filter.mp hmem).2
    simpa using h
  · intro k
    constructor
    · rintro ⟨g, hmem⟩
      obtain ⟨hmemR, hlen⟩ := List.mem_filter.mp hmem
      have hlen2 : 2 ≤ g.tracks.length := by simpa using hlen
      have hfind : assocFind ((pySortedStrings files).foldl (stepGroups store) []) k = some g :=
        assocFind_of_mem_nodup _ k g hmemR (foldl_keys_nodup store _ [] (by simp))
      rw [collect_lookup] at hfind
      rw [members_countP]
      cases hms : membersOf files store k with
      | nil =>
        rw [hms] at hfind
        simp at hfind
      | cons m rest =>
        rw [hms] at hfind
        simp only [Option.some.injEq] at hfind
        have htr : g.tracks.length = rest.length + 1 := by
          rw [← hfind, groupFoldG_tracks, updGroup_tracks]
          simp [initGroup]
        simp only [List.length_cons]
        omega
    · intro h2
      rw [members_countP] at h2
      have hfind := collect_lookup files store k
      cases hms : membersOf files store k with
      | nil =>
        rw [hms] at h2
        simp at h2
      | cons m rest =>
        rw [hms] at hfind
        have htr : (groupFoldG store (updGroup (mkPieceEntry store m)
            (initGroup (pidOf store m))) rest).tracks.length = rest.length + 1 := by
          rw [groupFoldG_tracks, updGroup_tracks]
          simp [initGroup]
        refine ⟨_, List.mem_filter.mpr ⟨assocFind_mem _ _ _ hfind, ?_⟩⟩
        rw [hms] at h2
        simp only [List.length_cons] at h2
        simp only [htr, decide_eq_true_eq]
        omega

theorem richness_eq_three (e : PieceEntry) (hc : e.composer ≠ "") (hp : e.piece_name ≠ "") :
    richness e = 3 := by
  simp [richness, hc, hp]

theorem richness_le_one_of_no_piece (e : PieceEntry) (h : e.piece_name = "") :
    richness e ≤ 1 := by
  simp only [richness]
  split_ifs with h1 h2
  · exact absurd h1.2 (by simp [h])
  · exact absurd h2 (by simp [h])
  · omega
  · omega

theorem pid_label_of_full (f : String) (m : MetaRow)
    (hc : (derivePieceIdentity f m).composer ≠ "") (hp : (derivePieceIdentity f m).piece ≠ "") :
    (derivePieceIdentity f m).label
      = (derivePieceIdentity f m).composer ++ " — " ++ (derivePieceIdentity f m).piece := by
  rcases derive_shape f m with ⟨_, _, _, hl⟩ | ⟨hc2, _, _, _⟩ | ⟨_, hp2, _, _⟩ | ⟨hc2, _, _, _⟩
  · exact hl
  · exact absurd hc2 hc
  · exact absurd hp2 hp
  · exact absurd hc2 hc

theorem backfill_foldl_entries (sel : PieceEntry → String) (es : List PieceEntry) (c0 : String) :
    es.foldl (fun c e => backfillStep (sel e) c) c0
      = if c0 ≠ "" then c0 else firstNonEmptyStr (es.map sel) := by
  rw [← backfill_foldl (es.map sel) c0, List.foldl_map]

theorem mkPieceEntry_composer (store : List MetaRow) (f : String) :
    (mkPieceEntry store f).composer = (pidOf store f).composer := rfl

theorem mkPieceEntry_piece (store : List MetaRow) (f : String) :
    (mkPieceEntry store f).piece_name = (pidOf store f).piece := rfl

theorem mkPieceEntry_filename (store : List MetaRow) (f : String) :
    (mkPieceEntry store f).filename = f := rfl

theorem initGroup_composer (pid : PieceIdent) : (initGroup pid).composer = pid.composer := rfl

theorem initGroup_piece (pid : PieceIdent) : (initGroup pid).piece_name = pid.piece := rfl

theorem backfillStep_self (x : String) : backfillStep x x = x := by
  by_cases h : x = "" <;> simp [backfillStep, h]

/-- `derive_shape` phrased through `pidOf`. -/
theorem pid_shape (store : List MetaRow) (f : String) :
    ((pidOf store f).composer ≠ "" ∧ (pidOf store f).piece ≠ ""
       ∧ (pidOf store f).key
           = "composer::" ++ (pidOf store f).composer ++ "|piece::" ++ (pidOf store f).piece
       ∧ (pidOf store f).label = (pidOf store f).composer ++ " — " ++ (pidOf store f).piece)
    ∨ ((pidOf store f).composer = "" ∧ (pidOf store f).piece ≠ ""
       ∧ ((pidOf store f).key = "piece::" ++ (pidOf store f).piece
           ∨ (pidOf store f).key = "file::" ++ (pidOf store f).piece)
       ∧ (pidOf store f).label = (pidOf store f).piece)
    ∨ ((pidOf store f).composer ≠ "" ∧ (pidOf store f).piece = ""
       ∧ (pidOf store f).key = "composer_only::" ++ (pidOf store f).composer
       ∧ (pidOf store f).label = (pidOf store f).composer)
    ∨ ((pidOf store f).composer = "" ∧ (pidOf store f).piece = ""
       ∧ (pidOf store f).key = "file::" ++ (pidOf store f).piece
       ∧ (pidOf store f).label = (pidOf store f).piece) :=
  derive_shape f (get_file_metadata store f)

theorem pid_label_full (store : List MetaRow) (f : String)
    (hc : (pidOf store f).composer ≠ "") (hp : (pidOf store f).piece ≠ "") :
    (pidOf store f).label = (pidOf store f).composer ++ " — " ++ (pidOf store f).piece :=
  pid_label_of_full f (get_file_metadata store f) hc hp

/-- C8: in every arena-eligible group, the final display label is the
derived label of a member of maximal richness (each composer+piece member
overwrites the label, so the last full member wins; otherwise the first
member's label stays), and the group's composer/piece fields are
backfilled with the first nonempty value among the members.  The grouping
is a pure function of the ordered input, hence deterministic. -/
theorem claim_C8_richest_label (files : List String) (store : List MetaRow)
    (k : String) (g : PieceGroup) (hmem : (k, g) ∈ collect_piece_groups files store) :
    ∃ e, e ∈ g.tracks
      ∧ (∀ e2 ∈ g.tracks, richness e2 ≤ richness e)
      ∧ g.display_label = (pidOf store e.filename).label
      ∧ g.composer = firstNonEmptyStr (g.tracks.map PieceEntry.composer)
      ∧ g.piece_name = firstNonEmptyStr (g.tracks.map PieceEntry.piece_name) := by
  obtain ⟨hmemR, _⟩ := List.mem_filter.mp hmem
  have hfind : assocFind ((pySortedStrings files).foldl (stepGroups store) []) k = some g :=
    assocFind_of_mem_nodup _ k g hmemR (foldl_keys_nodup store _ [] (by simp))
  rw [collect_lookup] at hfind
  cases hms : membersOf files store k with
  | nil =>
    rw [hms] at hfind
    simp at hfind
  | cons m rest =>
    rw [hms] at hfind
    simp only [Option.some.injEq] at hfind
    have hkeys : ∀ f2 ∈ (m :: rest), (pidOf store f2).key = k := by
      intro f2 hf2
      exact members_key files store k f2 (hms ▸ hf2)
    have hkey0 : (pidOf store m).key = k := hkeys m (List.mem_cons_self m rest)
    have htracks : g.tracks = (m :: rest).map (mkPieceEntry store) := by
      rw [← hfind, groupFoldG_tracks, updGroup_tracks]
      simp [initGroup]
    have hlabel2 : g.display_label
        = ((m :: rest).map (mkPieceEntry store)).foldl (fun lbl e => labelStep e lbl)
            (pidOf store m).label := by
      rw [← hfind, groupFoldG_label, updGroup_label]
      simp only [List.map_cons, List.foldl_cons]
      rfl
    have hcomp : g.composer = firstNonEmptyStr (g.tracks.map PieceEntry.composer) := by
      rw [htracks, ← hfind, groupFoldG_composer, updGroup_composer]
      rw [show (initGroup (pidOf store m)).composer = (mkPieceEntry store m).composer from rfl]
      rw [backfillStep_self, backfill_foldl_entries]
      simp only [List.map_cons, firstNonEmptyStr_cons]
    have hpiece : g.piece_name = firstNonEmptyStr (g.tracks.map PieceEntry.piece_name) := by
      rw [htracks, ← hfind, groupFoldG_piece, updGroup_piece]
      rw [show (initGroup (pidOf store m)).piece_name = (mkPieceEntry store m).piece_name from rfl]
      rw [backfillStep_self, backfill_foldl_entries]
      simp only [List.map_cons, firstNonEmptyStr_cons]
    cases hlast : (((m :: rest).map (mkPieceEntry store)).filter isFullE).getLast? with
    | some eF =>
      have heFfilter : eF ∈ ((m :: rest).map (mkPieceEntry store)).filter isFullE :=
        List.mem_of_getLast?_eq_some hlast
      have heFfull : isFullE eF = true := (List.mem_filter.mp heFfilter).2
      have hful : eF.composer ≠ "" ∧ eF.piece_name ≠ "" := by
        simpa [isFullE] using heFfull
      have heFmem : eF ∈ g.tracks := by
        rw [htracks]
        exact List.mem_of_mem_filter heFfilter
      refine ⟨eF, heFmem, ?_, ?_, hcomp, hpiece⟩
      · intro e2 _
        rw [richness_eq_three eF hful.1 hful.2]
        exact richness_le_three e2
      · rw [hlabel2, labelFold_lastFull _ _ eF hlast]
        obtain ⟨f2, _, hef⟩ := List.mem_map.mp (List.mem_of_mem_filter heFfilter)
        rw [← hef] at hful ⊢
        rw [mkPieceEntry_filename, mkPieceEntry_composer, mkPieceEntry_piece]
        rw [mkPieceEntry_composer, mkPieceEntry_piece] at hful
        exact (pid_label_full store f2 hful.1 hful.2).symm
    | none =>
      have hnil : ((m :: rest).map (mkPieceEntry store)).filter isFullE = [] := by
        rwa [List.getLast?_eq_none_iff] at hlast
      have hnf : ∀ e ∈ (m :: rest).map (mkPieceEntry store), isFullE e = false := by
        intro e he
        by_contra hb
        have hbt : isFullE e = true := by simpa using hb
        have hin : e ∈ ((m :: rest).map (mkPieceEntry store)).filter isFullE :=
          List.mem_filter.mpr ⟨he, hbt⟩
        rw [hnil] at hin
        simp at hin
      have hnf2 : ∀ f2 ∈ (m :: rest),
          ¬ ((pidOf store f2).composer ≠ "" ∧ (pidOf store f2).piece ≠ "") := by
        intro f2 hf2 hc
        have := hnf (mkPieceEntry store f2) (List.mem_map_of_mem _ hf2)
        rw [show isFullE (mkPieceEntry store f2)
            = ((pidOf store f2).composer ≠ "" && (pidOf store f2).piece ≠ "") from rfl] at this
        simp [hc.1, hc.2] at this
      have he0mem : mkPieceEntry store m ∈ g.tracks := by
        rw [htracks]
        exact List.mem_map_of_mem _ (List.mem_cons_self m rest)
      have hnfT : ∀ e2 ∈ g.tracks, isFullE e2 = false := by
        rw [htracks]
        exact hnf
      rcases pid_shape store m with
        ⟨hc0, hp0, _, _⟩ | ⟨hc0, hp0, hk0, hl0⟩ | ⟨hc0, hp0, hk0, hl0⟩ | ⟨hc0, hp0, hk0, hl0⟩
      · exact absurd ⟨hc0, hp0⟩ (hnf2 m (List.mem_cons_self m rest))
      · -- piece name present, composer empty: label is the piece name
        refine ⟨mkPieceEntry store m, he0mem, ?_, ?_, hcomp, hpiece⟩
        · intro e2 he2
          have h2 := richness_le_two_of_not_full e2 (hnfT e2 he2)
          have h0 : richness (mkPieceEntry store m) = 2 := by
            simp [richness, mkPieceEntry_composer, mkPieceEntry_piece, hc0, hp0]
          omega
        · rw [hlabel2, labelFold_stable _ _ hnf (by rw [hl0]; exact hp0),
            mkPieceEntry_filename]
      · -- composer only: label is the composer
        have hkc : k = "composer_only::" ++ (pidOf store m).composer := hkey0.symm.trans hk0
        refine ⟨mkPieceEntry store m, he0mem, ?_, ?_, hcomp, hpiece⟩
        · intro e2 he2
          have h0 : richness (mkPieceEntry store m) = 1 := by
            simp [richness, mkPieceEntry_composer, mkPieceEntry_piece, hc0, hp0]
          rw [htracks] at he2
          obtain ⟨f2, hf2, hef⟩ := List.mem_map.mp he2
          have hkey2 : (pidOf store f2).key = k := hkeys f2 hf2
          have hp2 : (pidOf store f2).piece = "" := by
            rcases pid_shape store f2 with
              ⟨hc2, hp2, _, _⟩ | ⟨_, hp2, hk2, _⟩ | ⟨_, hp2, _, _⟩ | ⟨_, hp2, _, _⟩
            · exact absurd ⟨hc2, hp2⟩ (hnf2 f2 hf2)
            · exfalso
              rcases hk2 with hk2 | hk2
              · exact shape_piece_ne_conly _ _ ((hk2.symm.trans hkey2).trans hkc)
              · exact shape_conly_ne_file _ _ (hkc.symm.trans (hkey2.symm.trans hk2))
            · exact hp2
            · exact hp2
          have h1 : richness e2 ≤ 1 := by
            rw [← hef]
            refine richness_le_one_of_no_piece _ ?_
            rw [mkPieceEntry_piece]
            exact hp2
          omega
        · rw [hlabel2, labelFold_stable _ _ hnf (by rw [hl0]; exact hc0),
            mkPieceEntry_filename]
      · -- no identity data at all
        have hkfile : k = "file::" ++ (pidOf store m).piece := hkey0.symm.trans hk0
        have hsib : ∀ f2 ∈ (m :: rest),
            (pidOf store f2).piece = "" ∧ (pidOf store f2).composer = "" := by
          intro f2 hf2
          have hkey2 : (pidOf store f2).key = k := hkeys f2 hf2
          rcases pid_shape store f2 with
            ⟨hc2, hp2, _, _⟩ | ⟨hc2, hp2, hk2, _⟩ | ⟨hc2, hp2, hk2, _⟩ | ⟨hc2, hp2, _, _⟩
          · exact absurd ⟨hc2, hp2⟩ (hnf2 f2 hf2)
          · exfalso
            rcases hk2 with hk2 | hk2
            · exact shape_piece_ne_file _ _ ((hk2.symm.trans hkey2).trans hkfile)
            · have hpp := shape_file_inj _ _ ((hk2.symm.trans hkey2).trans hkfile)
              rw [hp0] at hpp
              exact hp2 hpp
          · exfalso
            exact shape_conly_ne_file _ _ ((hk2.symm.trans hkey2).trans hkfile)
          · exact ⟨hp2, hc2⟩
        refine ⟨mkPieceEntry store m, he0mem, ?_, ?_, hcomp, hpiece⟩
        · intro e2 he2
          rw [htracks] at he2
          obtain ⟨f2, hf2, hef⟩ := List.mem_map.mp he2
          have h2 := hsib f2 hf2
          have hz : richness e2 = 0 := by
            rw [← hef]
            simp [richness, mkPieceEntry_composer, mkPieceEntry_piece, h2.1, h2.2]
          omega
        · have hall : ∀ e ∈ (m :: rest).map (mkPieceEntry store), e.piece_name = "" := by
            intro e he
            obtain ⟨f2, hf2, hef⟩ := List.mem_map.mp he
            rw [← hef, mkPieceEntry_piece]
            exact (hsib f2 hf2).1
          rw [hlabel2, labelFold_nopiece _ _ hall, mkPieceEntry_filename]

/-! ## Claim theorems: piece identity, rated-set lookup, upload -/

/-- The piece-identity four-case rule as §4.3 of the spec words it, amended
minimally: the piece name the rule tests is the effective piece name — the
metadata `piece_name`, falling back to `score_filename` when `piece_name`
is blank (both stripped). -/
def derivePieceIdentitySpec (filename : String) (m : MetaRow) : PieceIdent :=
  let piece := pyStrip (if m.piece_name ≠ "" then m.piece_name else m.score_filename)
  let composer := pyStrip m.composer
  if composer ≠ "" ∧ piece ≠ "" then
    ⟨"composer::" ++ composer ++ "|piece::" ++ piece, composer ++ " — " ++ piece, piece, composer⟩
  else if piece ≠ "" then
    ⟨"piece::" ++ piece, piece, piece, composer⟩
  else if composer ≠ "" then
    ⟨"composer_only::" ++ composer, composer, "", composer⟩
  else
    ⟨"file::" ++ pathStem filename, pathStem filename, pathStem filename, composer⟩

/-- C5 counterexample: for a metadata record with blank `composer` and
`piece_name` but a nonempty `score_filename`, the claim's four-case rule
(read on the metadata fields) demands the key `"file::x"`, while the code
derives `"piece::sheet"` from the score-file fallback. -/
theorem claim_C5_counterexample :
    (derivePieceIdentity "x.ogg" ⟨"x.ogg", "", "", "", "sheet"⟩).key = "piece::sheet"
    ∧ "piece::sheet" ≠ "file::" ++ pathStem "x.ogg" := by
  constructor
  · decide
  · decide

/-- C5 (amended): the derived piece identity follows the four-case rule
stated on the effective piece name (metadata `piece_name` falling back to
`score_filename`) and the stripped composer. -/
theorem claim_C5_amended_four_case_rule (filename : String) (m : MetaRow) :
    derivePieceIdentity filename m = derivePieceIdentitySpec filename m := by
  simp only [derivePieceIdentity, derivePieceIdentitySpec]
  generalize pyStrip (if m.piece_name ≠ "" then m.piece_name else m.score_filename) = p
  generalize pyStrip m.composer = c
  by_cases h1 : p = "" <;> by_cases h2 : c = "" <;> simp [h1, h2]

theorem rated_lowered_eq (store : RatingsCsv) (email : String) :
    get_user_rated_tracks store email = ratedTracksLowered store (pyLower email) := rfl

/-- C3: the rated-set lookup gives the same result for any two query
emails that agree up to letter case (the row email is compared to the
query email case-insensitively). -/
theorem claim_C3_case_insensitive_rated_set (store : RatingsCsv) (e1 e2 : String)
    (h : pyLower e1 = pyLower e2) :
    get_user_rated_tracks store e1 = get_user_rated_tracks store e2 := by
  rw [rated_lowered_eq, rated_lowered_eq, h]

theorem claim_C3_witness :
    pyLower "Alice@Example.COM" = pyLower "alice@example.com"
    ∧ get_user_rated_tracks
        (some [["timestamp", "filename", "score", "ip", "email", "remark"],
               ["t", "a.ogg", "7", "i", "ALICE@example.com", ""]]) "Alice@Example.COM"
      = get_user_rated_tracks
        (some [["timestamp", "filename", "score", "ip", "email", "remark"],
               ["t", "a.ogg", "7", "i", "ALICE@example.com", ""]]) "alice@example.com" :=
  ⟨by decide, claim_C3_case_insensitive_rated_set _ _ _ (by decide)⟩

theorem findIdx_none_of_not_mem (l : List String) (a : String) (h : a ∉ l) :
    l.findIdx? (fun c => c == a) = none := by
  rw [List.findIdx?_eq_none_iff]
  intro x hx
  have hne : ¬ x = a := fun he => h (he ▸ hx)
  simpa using hne

/-- C10: the rated-set lookup is total on degenerate stores: a missing
file, an empty file, and a header without a `filename` column all yield
the empty set instead of an error. -/
theorem claim_C10_lookup_total (e : String) (header : List String) (rows : List (List String)) :
    get_user_rated_tracks none e = []
    ∧ get_user_rated_tracks (some []) e = []
    ∧ ("filename" ∉ header → get_user_rated_tracks (some (header :: rows)) e = []) := by
  refine ⟨rfl, rfl, ?_⟩
  intro hnm
  unfold get_user_rated_tracks
  dsimp only
  by_cases hh : header.isEmpty = true
  · rw [if_pos hh]
  · rw [if_neg hh, findIdx_none_of_not_mem header "filename" hnm]

theorem claim_C10_witness :
    ("filename" ∉ (["timestamp", "name"] : List String))
    ∧ get_user_rated_tracks (some [["timestamp", "name"], ["t", "x"]]) "a@b" = [] :=
  ⟨by decide, (claim_C10_lookup_total "a@b" ["timestamp", "name"] [["t", "x"]]).2.2 (by decide)⟩

/-- C9: a wrong (or missing) admin password on an upload POST re-renders
the form with the "Incorrect password." message and causes no state
change: no file is saved, the converter is not invoked, and no metadata
record is appended. -/
theorem claim_C9_wrong_password_no_state_change (cfg : String) (secureName : String → String)
    (conv : Option String) (form : Form) (file : Option String)
    (h : formGet form "password" ≠ some cfg) :
    uploadPost cfg secureName conv form file
      = { message := "Incorrect password.", savedFile := none, converterCalled := false,
          metadataWritten := none } := by
  unfold uploadPost
  rw [if_pos h]

theorem claim_C9_witness :
    formGet [("password", "guess")] "password" ≠ some "secret"
    ∧ uploadPost "secret" id none [("password", "guess")] (some "a.mscz")
      = { message := "Incorrect password.", savedFile := none, converterCalled := false,
          metadataWritten := none } :=
  ⟨by decide, claim_C9_wrong_password_no_state_change "secret" id none _ _ (by decide)⟩

/-- C6: on a successful upload (correct password, allowed extension,
conversion succeeded), a metadata record is appended iff at least one of
the stripped optional fields model_name / composer / piece_name is
nonempty.  The "derived score-file name" of the claim is identically the
empty string in this variant — `save_metadata` is called without a
`score_filename` argument — so the appended record always carries
`score_filename = ""` and the claim's fourth disjunct never holds. -/
theorem claim_C6_metadata_iff_nonempty (cfg : String) (secureName : String → String)
    (form : Form) (fname : String)
    (hpw : formGet form "password" = some cfg) (hne : fname ≠ "")
    (hext : (fname.data.contains '.' && pyLower (extAfterLastDot fname) == "mscz") = true) :
    ((uploadPost cfg secureName none form (some fname)).metadataWritten ≠ none
      ↔ (pyStrip (formGetD form "model_name" "") ≠ ""
          ∨ pyStrip (formGetD form "composer" "") ≠ ""
          ∨ pyStrip (formGetD form "piece_name" "") ≠ ""))
    ∧ (∀ r, (uploadPost cfg secureName none form (some fname)).metadataWritten = some r →
        r.score_filename = "") := by
  unfold uploadPost
  rw [if_neg (fun hc => hc hpw)]
  dsimp only
  have hxf : (!(fname.data.contains '.' && pyLower (extAfterLastDot fname) == "mscz")) = false := by
    rw [hext]
    rfl
  rw [if_neg hne, if_neg (by rw [hxf]; simp)]
  dsimp only
  by_cases hmd : pyStrip (formGetD form "model_name" "") ≠ ""
      ∨ pyStrip (formGetD form "composer" "") ≠ ""
      ∨ pyStrip (formGetD form "piece_name" "") ≠ ""
  · rw [if_pos hmd]
    constructor
    · simp [hmd]
    · intro r hr
      simp only [Option.some.injEq] at hr
      rw [← hr]
  · rw [if_neg hmd]
    constructor
    · simp [hmd]
    · intro r hr
      simp at hr

theorem claim_C6_witness :
    ((uploadPost "pw" id none [("password", "pw"), ("composer", " Bach ")]
        (some "a.mscz")).metadataWritten ≠ none
      ↔ (pyStrip (formGetD [("password", "pw"), ("composer", " Bach ")] "model_name" "") ≠ ""
          ∨ pyStrip (formGetD [("password", "pw"), ("composer", " Bach ")] "composer" "") ≠ ""
          ∨ pyStrip (formGetD [("password", "pw"), ("composer", " Bach ")] "piece_name" "") ≠ ""))
    ∧ (∀ r, (uploadPost "pw" id none [("password", "pw"), ("composer", " Bach ")]
        (some "a.mscz")).metadataWritten = some r → r.score_filename = "") :=
  claim_C6_metadata_iff_nonempty "pw" id [("password", "pw"), ("composer", " Bach ")]
    "a.mscz" rfl (by decide) (by decide)

/-! ## Claim theorems: rating handler and track listing -/

theorem ratePost_single (form : Form) (ip email : String)
    (hemail : formGet form "email" = some email) (hne : email ≠ "")
    (hb : truthy (formGet form "batch_submit") = false) :
    ratePost form ip =
      (if !truthy (formGet form "filename") || !truthy (formGet form "score") then
        (RateResponse.badRequest, [])
      else
        match pyInt ((formGet form "score").getD "") with
        | none => (RateResponse.badRequest, [])
        | some n =>
          if 1 ≤ n ∧ n ≤ 10 then
            (RateResponse.thanksSingle email,
             [⟨(formGet form "filename").getD "", n, ip, email,
               pyStrip (formGetD form "remark" "")⟩])
          else (RateResponse.badRequest, [])) := by
  unfold ratePost
  rw [hemail]
  dsimp only
  rw [if_neg hne, hb]
  simp

/-- C1: a rating row is written exactly for a score that parses as an
integer in `[1, 10]`.  In batch mode the written rows are the item-wise
`filterMap` of the per-filename validation, so each item is accepted or
skipped independently of its siblings; in single (legacy) mode a missing
filename/score or an unparsable/out-of-range score aborts the whole
request with HTTP 400 and no row, and a valid score writes one row. -/
theorem claim_C1_score_validation (form : Form) (ip email : String)
    (hemail : formGet form "email" = some email) (hne : email ≠ "") :
    (truthy (formGet form "batch_submit") = true →
        formGetList form "filenames" ≠ [] →
        (ratePost form ip).2
          = (formGetList form "filenames").filterMap (batchItemRecord form ip email))
    ∧ (truthy (formGet form "batch_submit") = false →
        ((truthy (formGet form "filename") = false ∨ truthy (formGet form "score") = false →
            ratePost form ip = (RateResponse.badRequest, []))
          ∧ (∀ fn s, formGet form "filename" = some fn → fn ≠ "" →
              formGet form "score" = some s → s ≠ "" →
              ((∀ n : Int, pyInt s = some n → 1 ≤ n → n ≤ 10 →
                  ratePost form ip
                    = (RateResponse.thanksSingle email,
                       [⟨fn, n, ip, email, pyStrip (formGetD form "remark" "")⟩]))
                ∧ (scoreAccepted s = false →
                    ratePost form ip = (RateResponse.badRequest, [])))))) := by
  constructor
  · intro hbatch hfns
    rw [ratePost_batch form ip email hemail hne hbatch hfns]
  · intro hb
    constructor
    · intro hms
      rw [ratePost_single form ip email hemail hne hb]
      rcases hms with h | h
      · rw [if_pos (by simp [h])]
      · rw [if_pos (by simp [h])]
    · intro fn s hfn hfne hs hse
      constructor
      · intro n hpi h1 h10
        rw [ratePost_single form ip email hemail hne hb]
        rw [hfn, hs]
        rw [if_neg (by simp [truthy, hfne, hse])]
        rw [show (some s).getD "" = s from rfl, hpi]
        simp [h1, h10]
      · intro hsa
        rw [ratePost_single form ip email hemail hne hb]
        rw [hfn, hs]
        rw [if_neg (by simp [truthy, hfne, hse])]
        rw [show (some s).getD "" = s from rfl]
        cases hpi : pyInt s with
        | none => rfl
        | some n =>
          unfold scoreAccepted at hsa
          rw [hpi] at hsa
          have hrange : ¬ (1 ≤ n ∧ n ≤ 10) := by simpa using hsa
          simp [hrange]

theorem claim_C1_witness :
    (ratePost [("email", "a@b"), ("batch_submit", "on"), ("filenames", "t1.ogg"),
        ("filenames", "t2.ogg"), ("score_t1.ogg", "7"), ("score_t2.ogg", "11"),
        ("remark_t1.ogg", " ok ")] "ip").2
      = (formGetList [("email", "a@b"), ("batch_submit", "on"), ("filenames", "t1.ogg"),
          ("filenames", "t2.ogg"), ("score_t1.ogg", "7"), ("score_t2.ogg", "11"),
          ("remark_t1.ogg", " ok ")] "filenames").filterMap
          (batchItemRecord [("email", "a@b"), ("batch_submit", "on"), ("filenames", "t1.ogg"),
            ("filenames", "t2.ogg"), ("score_t1.ogg", "7"), ("score_t2.ogg", "11"),
            ("remark_t1.ogg", " ok ")] "ip" "a@b")
    ∧ ratePost [("email", "a@b"), ("filename", "t1.ogg"), ("score", "11")] "ip"
      = (RateResponse.badRequest, []) :=
  ⟨(claim_C1_score_validation _ "ip" "a@b" (by decide) (by decide)).1 (by decide) (by decide),
   (((claim_C1_score_validation [("email", "a@b"), ("filename", "t1.ogg"), ("score", "11")]
        "ip" "a@b" (by decide) (by decide)).2 (by decide)).2 "t1.ogg" "11" (by decide)
        (by decide) (by decide) (by decide)).2 (by decide)⟩

/-- C2: in batch mode, exactly as many rating rows are appended as there
are listed filenames carrying a valid score; with zero valid scores the
handler redirects with the `no_ratings` error and persists nothing, and
with at least one it renders the thanks page with the submitted count. -/
theorem claim_C2_batch_counts (form : Form) (ip email : String)
    (hemail : formGet form "email" = some email) (hne : email ≠ "")
    (hbatch : truthy (formGet form "batch_submit") = true)
    (hfns : formGetList form "filenames" ≠ []) :
    ((ratePost form ip).2.length
        = (formGetList form "filenames").countP (batchEntryValid form))
    ∧ ((formGetList form "filenames").countP (batchEntryValid form) = 0 →
        ratePost form ip = (RateResponse.redirectNoRatings email, []))
    ∧ (0 < (formGetList form "filenames").countP (batchEntryValid form) →
        (ratePost form ip).1
          = RateResponse.thanksBatch email
              ((formGetList form "filenames").countP (batchEntryValid form))) := by
  rw [ratePost_batch form ip email hemail hne hbatch hfns]
  refine ⟨?_, ?_, ?_⟩
  · exact filterMap_length_eq_countP form ip email _
  · intro h0
    rw [if_pos h0]
    have : ((formGetList form "filenames").filterMap
        (batchItemRecord form ip email)).length = 0 := by
      rw [filterMap_length_eq_countP, h0]
    rw [List.length_eq_zero] at this
    rw [this]
  · intro hpos
    rw [if_neg (by omega)]

theorem claim_C2_witness :
    ratePost [("email", "a@b"), ("batch_submit", "on"), ("filenames", "t1.ogg"),
        ("score_t1.ogg", "abc")] "ip"
      = (RateResponse.redirectNoRatings "a@b", [])
    ∧ (ratePost [("email", "a@b"), ("batch_submit", "on"), ("filenames", "t1.ogg"),
        ("score_t1.ogg", "7")] "ip").1
      = RateResponse.thanksBatch "a@b" 1 :=
  ⟨(claim_C2_batch_counts _ "ip" "a@b" (by decide) (by decide) (by decide)
      (by decide)).2.1 (by decide),
   (claim_C2_batch_counts _ "ip" "a@b" (by decide) (by decide) (by decide)
      (by decide)).2.2 (by decide)⟩

/-- C7: the track list offered to a rater equals the spec's description:
the full (sorted) track listing minus the Rated-Set Lookup result for the
email, filtered by exact match on the optional composer/piece/model
filters, and sorted by the requested key (filename the default) with the
filename order as the stable tiebreak within equal keys. -/
theorem claim_C7_track_listing (files : List String) (ratings : RatingsCsv)
    (meta : List MetaRow) (e : String) (so co pi mo : Option String) (hne : e ≠ "") :
    rateGet files ratings meta ⟨some e, so, co, pi, mo⟩
      = rateOfferSpec files ratings meta e (so.getD "filename") (co.getD "") (pi.getD "")
          (mo.getD "") :=
  rateGet_eq_offer_spec files ratings meta e so co pi mo hne

theorem claim_C7_witness :
    ("a@b" : String) ≠ ""
    ∧ rateGet ["b.ogg", "a.ogg", "c.ogg"]
        (some [["timestamp", "filename", "score", "ip", "email", "remark"],
               ["t", "a.ogg", "7", "i", "a@b", ""]])
        [⟨"b.ogg", "m1", "Bach", "Minuet", ""⟩, ⟨"c.ogg", "m2", "Abel", "Air", ""⟩]
        ⟨some "a@b", some "composer", none, none, none⟩
      = rateOfferSpec ["b.ogg", "a.ogg", "c.ogg"]
          (some [["timestamp", "filename", "score", "ip", "email", "remark"],
                 ["t", "a.ogg", "7", "i", "a@b", ""]])
          [⟨"b.ogg", "m1", "Bach", "Minuet", ""⟩, ⟨"c.ogg", "m2", "Abel", "Air", ""⟩]
          "a@b" "composer" "" "" "" :=
  ⟨by decide, claim_C7_track_listing _ _ _ "a@b" _ _ _ _ (by decide)⟩

theorem claim_C4_witness :
    2 ≤ (["a.ogg", "b.ogg"] : List String).countP
        (fun f => entryKey [⟨"a.ogg", "m1", "Bach", "Minuet", ""⟩,
            ⟨"b.ogg", "m2", "Bach", "Minuet", ""⟩] f == "composer::Bach|piece::Minuet")
    ∧ (∃ g, ("composer::Bach|piece::Minuet", g)
        ∈ collect_piece_groups ["a.ogg", "b.ogg"]
            [⟨"a.ogg", "m1", "Bach", "Minuet", ""⟩, ⟨"b.ogg", "m2", "Bach", "Minuet", ""⟩]) :=
  ⟨by decide, ((claim_C4_two_member_groups ["a.ogg", "b.ogg"]
      [⟨"a.ogg", "m1", "Bach", "Minuet", ""⟩, ⟨"b.ogg", "m2", "Bach", "Minuet", ""⟩]).2
      "composer::Bach|piece::Minuet").mpr (by decide)⟩

/-- Concrete group used to witness C8. -/
def c8group : PieceGroup :=
  { tracks := [⟨"a.ogg", ⟨"a.ogg", "m1", "Bach", "Minuet", ""⟩, "m1", "Minuet", "Bach"⟩,
               ⟨"b.ogg", ⟨"b.ogg", "m2", "Bach", "Minuet", ""⟩, "m2", "Minuet", "Bach"⟩],
    display_label := "Bach — Minuet", piece_name := "Minuet", composer := "Bach" }

theorem claim_C8_witness :
    (("composer::Bach|piece::Minuet", c8group)
        ∈ collect_piece_groups ["a.ogg", "b.ogg"]
            [⟨"a.ogg", "m1", "Bach", "Minuet", ""⟩, ⟨"b.ogg", "m2", "Bach", "Minuet", ""⟩])
    ∧ ∃ e, e ∈ c8group.tracks
        ∧ (∀ e2 ∈ c8group.tracks, richness e2 ≤ richness e)
        ∧ c8group.display_label
            = (pidOf [⟨"a.ogg", "m1", "Bach", "Minuet", ""⟩,
                ⟨"b.ogg", "m2", "Bach", "Minuet", ""⟩] e.filename).label
        ∧ c8group.composer = firstNonEmptyStr (c8group.tracks.map PieceEntry.composer)
        ∧ c8group.piece_name = firstNonEmptyStr (c8group.tracks.map PieceEntry.piece_name) :=
  ⟨by decide, claim_C8_richest_label ["a.ogg", "b.ogg"]
      [⟨"a.ogg", "m1", "Bach", "Minuet", ""⟩, ⟨"b.ogg", "m2", "Bach", "Minuet", ""⟩]
      "composer::Bach|piece::Minuet" c8group (by decide)⟩
